import Mathlib

/-!
# Verification of the day 23 Amphipod solver

This file gives a shallow embedding, in Lean, of the Rust module `src/day_23.rs`
(the burrow state codec, the goal builder, the move generator `build_states`,
the uniform-cost search `find_shortest_path`, and the layout expansion
`expand_burrow`), together with proofs about that embedding.

Conventions used by the embedding:
* Rust `u128` values are modeled as `Nat`.  Where Rust's `u128` arithmetic
  silently wraps (the left shift in the parsing fold, whose shifted-out bits
  are discarded by definition), the embedding takes the result `% 2 ^ 128`.
  Where Rust would panic instead (index out of bounds in `get_at`/`set_at`,
  shift amounts of 128 or more, arithmetic overflow in debug builds), the
  embedding is a total function and the theorems carry hypotheses that keep
  all executions inside the panic-free domain.
* Imperative loops are translated to structurally recursive functions.  Loops
  whose counter does not decrease structurally take an extra fuel argument;
  the caller passes a fuel that provably dominates the iteration count, so the
  fuel-exhaustion branch mirrors the loop's normal exit.
* `BinaryHeap<State>` is modeled as a list of `(cost, positions)` pairs from
  which `popMin` extracts the entry that the source's reversed ordering on
  `State` would pop: least cost first, ties resolved toward the largest
  packed state (all states in one search share the same `len`, so comparing
  packed `positions` values agrees with the derived `Ord` on `Burrow`).
  `HashMap<u128, usize>` is modeled as an association list where an insert
  prepends and a lookup takes the first match, exactly the overwrite
  semantics of the hash map.
* `find_shortest_path`'s unbounded `while let` loop takes a fuel argument and
  returns `none` when the fuel runs out, `some none` for the source's `None`
  (queue exhausted) and `some (some c)` for `Some(c)`.
-/

namespace Day23

/-- The distinguished `usize::MAX` default used by the search when a state has
no recorded distance. -/
def usizeMax : Nat := 2 ^ 64 - 1

/-- `parse_letter` from the source: turn a letter into the number representing
it internally (`None` for any other character). -/
def parse_letter (letter : Char) : Option Nat :=
  if letter = '.' then some 0
  else if letter = 'A' then some 1
  else if letter = 'B' then some 2
  else if letter = 'C' then some 3
  else if letter = 'D' then some 4
  else none

/-- The `Burrow` struct from the source: a number of cells and a packed
integer holding 3 bits per cell (the `u128` field is modeled as `Nat`; every
value the program constructs stays below `2 ^ 128`). -/
structure Burrow where
  len : Nat
  positions : Nat
deriving DecidableEq

/-- `impl From<&String> for Burrow`: fold the parseable characters, shifting
each 3-bit cell in from the right.  The shift is the one place where Rust
`u128` arithmetic wraps silently (bits shifted past bit 127 are discarded),
so the embedding reduces modulo `2 ^ 128` at each step. -/
def Burrow.fromStr (s : List Char) : Burrow :=
  let p := (s.filterMap parse_letter).foldl
    (fun acc num => (acc.1 + 1, ((acc.2 <<< 3) + num) % 2 ^ 128)) (0, 0)
  ⟨p.1, p.2⟩

/-- `Burrow::get_at`: the 3-bit cell value at `pos`.  The source panics when
`pos ≥ len`; the embedding is total and the theorems below only invoke it
within bounds. -/
def Burrow.get_at (b : Burrow) (pos : Nat) : Nat :=
  (b.positions >>> ((b.len - pos - 1) * 3)) &&& 7

/-- The per-cell character used by the `Display` implementation. -/
def cellChar (v : Nat) : Char :=
  if v = 0 then '.'
  else if v = 1 then 'A'
  else if v = 2 then 'B'
  else if v = 3 then 'C'
  else if v = 4 then 'D'
  else '?'

/-- `impl Display for Burrow` (also used by `Debug`): render one character per
cell, in cell order. -/
def Burrow.render (b : Burrow) : List Char :=
  (List.range b.len).map (fun i => cellChar (b.get_at i))

/-- `Burrow::set_at`: clear the 3 bits of cell `pos` and or in `val`.  Mirrors
the source's mask arithmetic (`bits` is the all-ones pattern for the whole
burrow, `hole` the cell's bits, `mask = hole ^ bits`). -/
def Burrow.set_at (b : Burrow) (pos : Nat) (val : Nat) : Burrow :=
  let offset := (b.len - pos - 1) * 3
  let bits := (1 <<< (b.len * 3)) - 1
  let hole := 7 <<< offset
  let mask := hole ^^^ bits
  let zeroed := b.positions &&& mask
  ⟨b.len, zeroed ||| (val <<< offset)⟩

/-- `Burrow::swap`: a new burrow with the values at `a` and `b` exchanged.
As in the source, both reads happen on the original burrow, then the two
writes are applied to a copy. -/
def Burrow.swap (b : Burrow) (a c : Nat) : Burrow :=
  (b.set_at a (b.get_at c)).set_at c (b.get_at a)

/-- `build_goal`: the target burrow for a given depth — hallway empty and each
row of the four side tunnels holding `1 2 3 4` (`ABCD`).  As in the parsing
fold, the `u128` shift wraps silently (and the following add cannot carry into
the cleared low bits), so the embedding reduces modulo `2 ^ 128`. -/
def build_goal (depth : Nat) : Burrow :=
  let len := depth * 4 + 7
  let row := (1 <<< 9) + (2 <<< 6) + (3 <<< 3) + 4
  let positions :=
    (List.range depth).foldl (fun acc _ => ((acc <<< 12) + row) % 2 ^ 128) 0
  ⟨len, positions⟩

/-- The `COSTS` table: cost to move each type of Amphipod, in order A–D. -/
def COSTS : List Nat := [1, 10, 100, 1000]

/-- One horizontal step's contribution to the distance in `build_states`'s
hallway walk: end cells (`0`, `6`) cost 1, all others 2 (they cross an
unrepresented tunnel entrance). -/
def walkStep (hpos : Nat) : Nat :=
  if hpos = 0 ∨ hpos = 6 then 1 else 2

/-- The hallway walk of `build_states` moving right (`delta = 1`), recursing
on the number of remaining steps to the target cell.  Each step adds the
distance for leaving the current cell and aborts if the new cell is
occupied. -/
def walkRight (b : Burrow) : Nat → Nat → Nat → Option Nat
  | hpos, dist, 0 => some dist
  | hpos, dist, steps + 1 =>
    let dist := dist + walkStep hpos
    let hpos := hpos + 1
    if b.get_at hpos ≠ 0 then none else walkRight b hpos dist steps

/-- The hallway walk of `build_states` moving left (`delta = -1`). -/
def walkLeft (b : Burrow) : Nat → Nat → Nat → Option Nat
  | hpos, dist, 0 => some dist
  | hpos, dist, steps + 1 =>
    let dist := dist + walkStep hpos
    let hpos := hpos - 1
    if b.get_at hpos ≠ 0 then none else walkLeft b hpos dist steps

/-- The combined hallway walk: from hallway cell `i`, an Amphipod of type
`curr` walks right to target `curr` when `i ≤ curr`, else left to target
`curr + 1`, starting with distance 1 (the step onto the tunnel entrance). -/
def hallwayPath (b : Burrow) (i curr : Nat) : Option Nat :=
  if i ≤ curr then walkRight b i 1 (curr - i)
  else walkLeft b i 1 (i - (curr + 1))

/-- The tunnel descent of `build_states`'s hallway phase: walk down the tunnel
in steps of 4 while `vpos < len`, remembering the last empty cell in `fpos`
and counting empty cells into `dist`; abort on a mismatched Amphipod.  The
fuel (the caller passes `b.len`, which dominates the iteration count) only
bounds the recursion; the loop's real exit condition `vpos < len` is checked
inside. -/
def descend (b : Burrow) (curr : Nat) : Nat → Nat → Nat → Nat → Option (Nat × Nat)
  | vpos, fpos, dist, 0 => some (fpos, dist)
  | vpos, fpos, dist, fuel + 1 =>
    if vpos < b.len then
      if b.get_at vpos = 0 then descend b curr (vpos + 4) vpos (dist + 1) fuel
      else if b.get_at vpos ≠ curr then none
      else descend b curr (vpos + 4) fpos dist fuel
    else some (fpos, dist)

/-- One iteration of `build_states`'s first phase: the move (if any) of the
Amphipod at hallway cell `i` into its tunnel. -/
def hallwayMove (b : Burrow) (i : Nat) : Option (Nat × Burrow) :=
  let curr := b.get_at i
  if curr = 0 then none
  else
    let cost := COSTS.getD (curr - 1) 0
    match hallwayPath b i curr with
    | none => none
    | some dist =>
      match descend b curr (curr + 6) (curr + 6) dist b.len with
      | none => none
      | some fd => some (cost * fd.2, b.swap i fd.1)

/-- The walk down tunnel `i` in `build_states`'s second phase: find the first
occupied cell and the distance to it (starting from 2).  Fuel as in
`descend`. -/
def findTop (b : Burrow) : Nat → Nat → Nat → Option (Nat × Nat)
  | vpos, dist, 0 => none
  | vpos, dist, fuel + 1 =>
    if vpos < b.len then
      if b.get_at vpos ≠ 0 then some (vpos, dist)
      else findTop b (vpos + 4) (dist + 1) fuel
    else none

/-- The leftward hallway scan of `build_states`'s second phase: while the cell
`lp` is empty, emit the move into it, then step left (stopping after cell 0);
crossing into cell 0 costs 1, other steps 2. -/
def goLeft (b : Burrow) (cost dist pos : Nat) : Nat → Nat → List (Nat × Burrow)
  | 0, ld =>
    if b.get_at 0 = 0 then [(cost * (dist + ld), b.swap pos 0)] else []
  | lp + 1, ld =>
    if b.get_at (lp + 1) = 0 then
      (cost * (dist + ld), b.swap pos (lp + 1)) ::
        goLeft b cost dist pos lp (ld + if lp = 0 then 1 else 2)
    else []

/-- The rightward hallway scan of `build_states`'s second phase: while
`rp ≤ 6` and the cell is empty, emit the move, then step right; stepping onto
cell 6 costs 1, other steps 2.  The caller passes fuel `7 - rp`, so running
out of fuel coincides with `rp > 6`. -/
def goRight (b : Burrow) (cost dist pos : Nat) : Nat → Nat → Nat → List (Nat × Burrow)
  | rp, rd, 0 => []
  | rp, rd, fuel + 1 =>
    if rp ≤ 6 ∧ b.get_at rp = 0 then
      (cost * (dist + rd), b.swap pos rp) ::
        goRight b cost dist pos (rp + 1) (rd + if rp + 1 = 6 then 1 else 2) fuel
    else []

/-- One iteration of `build_states`'s second phase: the moves of the topmost
Amphipod of tunnel `i` out into the hallway (left scan first, then right). -/
def tunnelMoves (b : Burrow) (i : Nat) : List (Nat × Burrow) :=
  match findTop b (7 + i) 2 b.len with
  | none => []
  | some pd =>
    let curr := b.get_at pd.1
    let cost := COSTS.getD (curr - 1) 0
    goLeft b cost pd.2 pd.1 (i + 1) 0 ++ goRight b cost pd.2 pd.1 (i + 2) 0 (7 - (i + 2))

/-- `build_states`: all moves from a burrow with their costs — hallway cells
0–6 in order, then tunnels 0–3 in order. -/
def build_states (b : Burrow) : List (Nat × Burrow) :=
  ((List.range 7).filterMap (hallwayMove b)) ++ ((List.range 4).flatMap (tunnelMoves b))

/-- The priority ordering of the search's heap: the source reverses the cost
comparison so that Rust's max-heap pops the least cost, breaking ties toward
the greatest burrow.  `heapPopRank x y` says `x` pops no later than `y`. -/
def heapPopRank (x y : Nat × Nat) : Bool :=
  x.1 < y.1 ∨ (x.1 = y.1 ∧ y.2 ≤ x.2)

/-- Pop the best entry of the modeled heap, returning it and the remaining
entries. -/
def popMin : List (Nat × Nat) → Option ((Nat × Nat) × List (Nat × Nat))
  | [] => none
  | x :: xs =>
    match popMin xs with
    | none => some (x, [])
    | some mr => if heapPopRank x mr.1 then some (x, xs) else some (mr.1, x :: mr.2)

/-- Lookup in the modeled `HashMap` (first match wins, `dflt` when the key is
absent, mirroring `dist.get(..).unwrap_or(&dflt)`). -/
def findD : List (Nat × Nat) → Nat → Nat → Nat
  | [], _, dflt => dflt
  | kv :: rest, p, dflt => if p = kv.1 then kv.2 else findD rest p dflt

/-- The relaxation loop of `find_shortest_path`: for each `(energy, next)`
edge, push and record `cost + energy` when it improves on the recorded
distance (`usize::MAX` when absent). -/
def relaxEdges (cost : Nat) (succs : List (Nat × Nat)) (hd : List (Nat × Nat) × List (Nat × Nat)) :
    List (Nat × Nat) × List (Nat × Nat) :=
  succs.foldl
    (fun hd e =>
      let nextCost := cost + e.1
      if nextCost < findD hd.2 e.2 usizeMax then
        ((nextCost, e.2) :: hd.1, (e.2, nextCost) :: hd.2)
      else hd)
    hd

/-- The `while let` loop of `find_shortest_path`, generic in the successor
relation `next` (cost and packed state of each move) and the goal test.
Returns `none` on fuel exhaustion, `some none` for the source's `None`, and
`some (some c)` for `Some(c)`. -/
def dijkstraLoop (next : Nat → List (Nat × Nat)) (isGoal : Nat → Bool) :
    Nat → List (Nat × Nat) → List (Nat × Nat) → Option (Option Nat)
  | 0, _, _ => none
  | fuel + 1, heap, dist =>
    match popMin heap with
    | none => some none
    | some cpr =>
      if isGoal cpr.1.2 then some (some cpr.1.1)
      else if findD dist cpr.1.2 usizeMax < cpr.1.1 then
        dijkstraLoop next isGoal fuel cpr.2 dist
      else
        let hd := relaxEdges cpr.1.1 (next cpr.1.2) (cpr.2, dist)
        dijkstraLoop next isGoal fuel hd.1 hd.2

/-- The successor relation used by `find_shortest_path`: `build_states` on the
burrow with the search's fixed length, projected to (cost, packed state). -/
def nextOf (len : Nat) (p : Nat) : List (Nat × Nat) :=
  (build_states ⟨len, p⟩).map (fun m => (m.1, m.2.positions))

/-- `find_shortest_path`: Dijkstra's algorithm from `start` toward
`build_goal ((len - 7) / 4)`, seeded with distance 0 for the start.  All
states met by the search share `start.len`, so heap entries carry only the
packed positions and the goal test compares the reconstituted burrow with the
goal (the source's `burrow == goal`). -/
def find_shortest_path (start : Burrow) (fuel : Nat) : Option (Option Nat) :=
  let depth := (start.len - 7) / 4
  let goal := build_goal depth
  dijkstraLoop (nextOf start.len)
    (fun p => decide ((⟨start.len, p⟩ : Burrow) = goal))
    fuel [(0, start.positions)] [(start.positions, 0)]

/-- `expand_burrow`: render, splice the two hidden rows (`DCBADBAC`) in at
character offset 11, and re-parse. -/
def expand_burrow (b : Burrow) : Burrow :=
  let s := b.render
  Burrow.fromStr (s.take 11 ++ ['D', 'C', 'B', 'A', 'D', 'B', 'A', 'C'] ++ s.drop 11)

/-- The sample start burrow of the repository's tests, as a character list
(`.......BCBDADCA`). -/
def sampleChars : List Char :=
  ['.', '.', '.', '.', '.', '.', '.', 'B', 'C', 'B', 'D', 'A', 'D', 'C', 'A']

/-- A depth-1 burrow with no legal move at all (five `D`s walling off the
hallway, a room row of `A`s): renders `.DDDDD.AAAA`. -/
def deadlockChars : List Char :=
  ['.', 'D', 'D', 'D', 'D', 'D', '.', 'A', 'A', 'A', 'A']

/-- Specification-side measure for the conservation claims: the number of
cells of `b` holding value `v`. -/
def countVal (b : Burrow) (v : Nat) : Nat :=
  ((Finset.range b.len).filter (fun i => b.get_at i = v)).card

/-- Reachability in the implicit move graph on packed states: `Reach next s p c`
says some finite sequence of `next`-moves of total cost `c` leads from `s`
to `p`. -/
inductive Reach (next : Nat → List (Nat × Nat)) (s : Nat) : Nat → Nat → Prop
  | refl : Reach next s s 0
  | step {v c e w} : Reach next s v c → (e, w) ∈ next v → Reach next s w (c + e)

/-- Reachability at the burrow level: `ReachB b₀ b c` says some finite sequence
of moves generated by `build_states`, of total cost `c`, leads from `b₀`
to `b`. -/
inductive ReachB (b₀ : Burrow) : Burrow → Nat → Prop
  | refl : ReachB b₀ b₀ 0
  | step {b c e b'} : ReachB b₀ b c → (e, b') ∈ build_states b → ReachB b₀ b' (c + e)

/-- The ghost-augmented search loop used only by the proofs: identical to
`dijkstraLoop` in control flow and result, but additionally accumulating the
set of states that have been popped and relaxed. -/
def ghostLoop (next : Nat → List (Nat × Nat)) (isGoal : Nat → Bool) :
    Nat → List (Nat × Nat) → List (Nat × Nat) → Finset Nat → Option (Option Nat)
  | 0, _, _, _ => none
  | fuel + 1, heap, dist, done =>
    match popMin heap with
    | none => some none
    | some cpr =>
      if isGoal cpr.1.2 then some (some cpr.1.1)
      else if findD dist cpr.1.2 usizeMax < cpr.1.1 then
        ghostLoop next isGoal fuel cpr.2 dist done
      else
        let hd := relaxEdges cpr.1.1 (next cpr.1.2) (cpr.2, dist)
        ghostLoop next isGoal fuel hd.1 hd.2 (insert cpr.1.2 done)

/-- The invariant of the search loop, stated over the ghost state.  `s` is the
start state, `bound` a strict bound on all packed states of the graph. -/
structure DInv (next : Nat → List (Nat × Nat)) (isGoal : Nat → Bool) (s bound : Nat)
    (heap dist : List (Nat × Nat)) (done : Finset Nat) : Prop where
  heap_sound : ∀ cp ∈ heap, Reach next s cp.2 cp.1
  heap_lt_max : ∀ cp ∈ heap, cp.1 < usizeMax
  heap_findD : ∀ cp ∈ heap, findD dist cp.2 usizeMax ≤ cp.1
  dist_sound : ∀ pc ∈ dist, Reach next s pc.1 pc.2
  dist_lt_max : ∀ pc ∈ dist, pc.2 < usizeMax
  start_zero : findD dist s usizeMax = 0
  open_in_heap : ∀ p, p ∉ done → findD dist p usizeMax < usizeMax →
    (findD dist p usizeMax, p) ∈ heap
  done_relaxed : ∀ u ∈ done, ∀ ew ∈ next u,
    findD dist ew.2 usizeMax ≤ findD dist u usizeMax + ew.1
  done_le_heap : ∀ u ∈ done, ∀ cp ∈ heap, findD dist u usizeMax ≤ cp.1
  done_not_goal : ∀ u ∈ done, isGoal u = false
  done_bound : ∀ u ∈ done, u < bound

/-! ## State codec lemmas -/

theorem get_at_lt_eight (b : Burrow) (p : Nat) : b.get_at p < 8 :=
  Nat.lt_succ_of_le (Nat.and_le_right)

theorem testBit_get_at (b : Burrow) (p j : Nat) :
    (b.get_at p).testBit j =
      (b.positions.testBit ((b.len - p - 1) * 3 + j) && decide (j < 3)) := by
  have h7 : (7 : Nat) = 2 ^ 3 - 1 := by norm_num
  rw [Burrow.get_at, Nat.testBit_land, Nat.testBit_shiftRight, h7,
    Nat.testBit_two_pow_sub_one]

theorem len_set_at (b : Burrow) (p v : Nat) : (b.set_at p v).len = b.len := rfl

theorem testBit_of_lt_eight {v : Nat} (hv : v < 8) {j : Nat} (hj : 3 ≤ j) :
    v.testBit j = false :=
  Nat.testBit_lt_two_pow (by calc v < 8 := hv
    _ = 2 ^ 3 := by norm_num
    _ ≤ 2 ^ j := Nat.pow_le_pow_right (by norm_num) hj)

theorem testBit_set_at (b : Burrow) (p v : Nat) (hv : v < 8) (hlen : 1 ≤ b.len) (i : Nat) :
    ((b.set_at p v).positions).testBit i =
      if (b.len - p - 1) * 3 ≤ i ∧ i < (b.len - p - 1) * 3 + 3 then
        v.testBit (i - (b.len - p - 1) * 3)
      else (b.positions.testBit i && decide (i < b.len * 3)) := by
  have h7 : (7 : Nat) = 2 ^ 3 - 1 := by norm_num
  have hone : (1 : Nat) <<< (b.len * 3) = 2 ^ (b.len * 3) := by
    rw [Nat.shiftLeft_eq, one_mul]
  have hoff : (b.len - p - 1) * 3 + 3 ≤ b.len * 3 := by
    have : b.len - p - 1 ≤ b.len - 1 := by omega
    omega
  rw [Burrow.set_at]
  simp only [Nat.testBit_lor, Nat.testBit_land, Nat.testBit_xor, hone,
    Nat.testBit_shiftLeft, h7, Nat.testBit_two_pow_sub_one, ge_iff_le]
  by_cases h1 : (b.len - p - 1) * 3 ≤ i
  · by_cases h2 : i < (b.len - p - 1) * 3 + 3
    · rw [if_pos ⟨h1, h2⟩]
      have e2 : decide (i - (b.len - p - 1) * 3 < 3) = true := by
        simp only [decide_eq_true_eq]; omega
      have e3 : decide (i < b.len * 3) = true := by
        simp only [decide_eq_true_eq]; omega
      simp [h1, e2, e3]
    · rw [if_neg (by omega)]
      have e2 : decide (i - (b.len - p - 1) * 3 < 3) = false := by
        simp only [decide_eq_false_iff_not]; omega
      have e5 : v.testBit (i - (b.len - p - 1) * 3) = false :=
        testBit_of_lt_eight hv (by omega)
      simp [h1, e2, e5]
  · rw [if_neg (by omega)]
    have e1 : decide ((b.len - p - 1) * 3 ≤ i) = false := by
      simp only [decide_eq_false_iff_not]; omega
    have e3 : decide (i < b.len * 3) = true := by
      simp only [decide_eq_true_eq]; omega
    simp [e1, e3]

theorem slot_off_injective {len p q : Nat} (hp : p < len) (hq : q < len)
    (h : (len - p - 1) * 3 = (len - q - 1) * 3) : p = q := by omega

theorem get_at_set_at_self (b : Burrow) {p : Nat} (hp : p < b.len) {v : Nat} (hv : v < 8) :
    (b.set_at p v).get_at p = v := by
  apply Nat.eq_of_testBit_eq
  intro j
  rw [testBit_get_at, len_set_at, testBit_set_at b p v hv (by omega)]
  rcases Nat.lt_or_ge j 3 with hj | hj
  · rw [if_pos ⟨Nat.le_add_right _ _, by omega⟩]
    simp [hj]
  · have hvj : v.testBit j = false := testBit_of_lt_eight hv hj
    rw [if_neg (by omega)]
    simp [Nat.not_lt.mpr hj, hvj]

theorem get_at_set_at_ne (b : Burrow) {p q : Nat} (hp : p < b.len) (hq : q < b.len)
    (hne : q ≠ p) {v : Nat} (hv : v < 8) :
    (b.set_at p v).get_at q = b.get_at q := by
  apply Nat.eq_of_testBit_eq
  intro j
  rw [testBit_get_at, len_set_at, testBit_set_at b p v hv (by omega), testBit_get_at]
  rcases Nat.lt_or_ge j 3 with hj | hj
  · have hdisj : ¬ ((b.len - p - 1) * 3 ≤ (b.len - q - 1) * 3 + j ∧
        (b.len - q - 1) * 3 + j < (b.len - p - 1) * 3 + 3) := by
      intro hcon
      have : b.len - p - 1 = b.len - q - 1 := by omega
      exact hne (by omega)
    rw [if_neg hdisj]
    have hlt : (b.len - q - 1) * 3 + j < b.len * 3 := by
      have : b.len - q - 1 < b.len := by omega
      omega
    simp [hj, hlt]
  · simp [Nat.not_lt.mpr hj]

theorem set_at_positions_lt (b : Burrow) (p : Nat) {v : Nat} (hv : v < 8)
    (hlen : 1 ≤ b.len) : (b.set_at p v).positions < 2 ^ (b.len * 3) := by
  by_contra hcon
  obtain ⟨i, hi, hbit⟩ :=
    Nat.ge_two_pow_implies_high_bit_true (Nat.le_of_not_lt hcon)
  rw [testBit_set_at b p v hv hlen] at hbit
  rcases Nat.lt_or_ge i ((b.len - p - 1) * 3 + 3) with h2 | h2
  · rcases Nat.lt_or_ge i ((b.len - p - 1) * 3) with h3 | h3
    · rw [if_neg (by omega)] at hbit
      simp only [Bool.and_eq_true, decide_eq_true_eq] at hbit
      omega
    · rw [if_pos ⟨h3, h2⟩] at hbit
      have : v.testBit (i - (b.len - p - 1) * 3) = true := hbit
      have hge := Nat.testBit_implies_ge this
      have : i - (b.len - p - 1) * 3 < 3 := by omega
      interval_cases h : (i - (b.len - p - 1) * 3) <;> omega
  · rw [if_neg (by omega)] at hbit
    simp only [Bool.and_eq_true, decide_eq_true_eq] at hbit
    omega

theorem len_swap (b : Burrow) (a c : Nat) : (b.swap a c).len = b.len := rfl

theorem get_at_swap_fst (b : Burrow) {a c : Nat} (ha : a < b.len) (hc : c < b.len) :
    (b.swap a c).get_at a = b.get_at c := by
  rcases eq_or_ne a c with h | h
  · subst h
    rw [Burrow.swap, get_at_set_at_self _ (by simpa using ha) (get_at_lt_eight b a)]
  · rw [Burrow.swap,
      get_at_set_at_ne _ (by simpa using hc) (by simpa using ha) h (get_at_lt_eight b a),
      get_at_set_at_self _ ha (get_at_lt_eight b c)]

theorem get_at_swap_snd (b : Burrow) {a c : Nat} (ha : a < b.len) (hc : c < b.len) :
    (b.swap a c).get_at c = b.get_at a := by
  rw [Burrow.swap, get_at_set_at_self _ (by simpa using hc) (get_at_lt_eight b a)]

theorem get_at_swap_other (b : Burrow) {a c q : Nat} (ha : a < b.len) (hc : c < b.len)
    (hq : q < b.len) (hqa : q ≠ a) (hqc : q ≠ c) :
    (b.swap a c).get_at q = b.get_at q := by
  rw [Burrow.swap,
    get_at_set_at_ne _ (by simpa using hc) (by simpa using hq) hqc (get_at_lt_eight b a),
    get_at_set_at_ne _ ha hq hqa (get_at_lt_eight b c)]

theorem swap_positions_lt (b : Burrow) (a c : Nat) (hlen : 1 ≤ b.len) :
    (b.swap a c).positions < 2 ^ (b.len * 3) :=
  set_at_positions_lt _ c (get_at_lt_eight b a) (by simpa using hlen)

/-- Two burrows with the same length, both within the packed range, and the
same cell values are equal. -/
theorem burrow_ext {b₁ b₂ : Burrow} (hlen : b₁.len = b₂.len)
    (h₁ : b₁.positions < 2 ^ (b₁.len * 3)) (h₂ : b₂.positions < 2 ^ (b₂.len * 3))
    (hget : ∀ q < b₁.len, b₁.get_at q = b₂.get_at q) : b₁ = b₂ := by
  obtain ⟨l₁, p₁⟩ := b₁
  obtain ⟨l₂, p₂⟩ := b₂
  simp only at hlen
  subst hlen
  simp only [Burrow.mk.injEq, true_and]
  apply Nat.eq_of_testBit_eq
  intro i
  rcases Nat.lt_or_ge i (l₁ * 3) with hi | hi
  · have hq : l₁ - (l₁ - 1 - i / 3) - 1 = i / 3 := by omega
    have hqlt : l₁ - 1 - i / 3 < l₁ := by omega
    have := hget (l₁ - 1 - i / 3) hqlt
    have hbit := congrArg (fun n => n.testBit (i % 3)) this
    simp only [testBit_get_at] at hbit
    rw [hq] at hbit
    have hrange : decide (i % 3 < 3) = true := by simp [Nat.mod_lt]
    rw [hrange, Bool.and_true, Bool.and_true] at hbit
    have hidx : i / 3 * 3 + i % 3 = i := by omega
    simpa [hidx] using hbit
  · rw [Nat.testBit_lt_two_pow (lt_of_lt_of_le h₁ (Nat.pow_le_pow_right (by norm_num) hi)),
      Nat.testBit_lt_two_pow (lt_of_lt_of_le h₂ (Nat.pow_le_pow_right (by norm_num) hi))]

theorem swap_swap (b : Burrow) {a c : Nat} (ha : a < b.len) (hc : c < b.len)
    (hb : b.positions < 2 ^ (b.len * 3)) : (b.swap a c).swap a c = b := by
  have hlen : ((b.swap a c).swap a c).len = b.len := by rw [len_swap, len_swap]
  have ha' : a < (b.swap a c).len := by rwa [len_swap]
  have hc' : c < (b.swap a c).len := by rwa [len_swap]
  apply burrow_ext hlen
  · rw [hlen]
    exact swap_positions_lt _ a c (by rw [len_swap]; omega)
  · exact hb
  · intro q hq
    rw [hlen] at hq
    rcases eq_or_ne q a with rfl | hqa
    · rw [get_at_swap_fst _ ha' hc', get_at_swap_snd b ha hc]
    · rcases eq_or_ne q c with rfl | hqc
      · rw [get_at_swap_snd _ ha' hc', get_at_swap_fst b ha hc]
      · rw [get_at_swap_other _ ha' hc' (by rwa [len_swap]) hqa hqc,
          get_at_swap_other b ha hc hq hqa hqc]

/-! ## Round-trip lemmas for the codec -/

theorem valid_char_parse {c : Char}
    (h : c = '.' ∨ c = 'A' ∨ c = 'B' ∨ c = 'C' ∨ c = 'D') :
    ∃ d, parse_letter c = some d ∧ d < 8 ∧ cellChar d = c := by
  rcases h with rfl | rfl | rfl | rfl | rfl
  · exact ⟨0, by decide⟩
  · exact ⟨1, by decide⟩
  · exact ⟨2, by decide⟩
  · exact ⟨3, by decide⟩
  · exact ⟨4, by decide⟩

theorem filterMap_parse_of_valid (s : List Char)
    (h : ∀ c ∈ s, c = '.' ∨ c = 'A' ∨ c = 'B' ∨ c = 'C' ∨ c = 'D') :
    s.filterMap parse_letter = s.map (fun c => (parse_letter c).getD 0) := by
  induction s with
  | nil => rfl
  | cons c t ih =>
    obtain ⟨d, hd, -, -⟩ := valid_char_parse (h c (List.mem_cons_self c t))
    rw [List.filterMap_cons, List.map_cons, hd]
    simp only [Option.getD_some]
    rw [ih (fun x hx => h x (List.mem_cons_of_mem c hx))]

theorem fromStr_fold_pair (ds : List Nat) (n a : Nat) :
    ds.foldl (fun (acc : Nat × Nat) num => (acc.1 + 1, ((acc.2 <<< 3) + num) % 2 ^ 128)) (n, a) =
      (n + ds.length, ds.foldl (fun acc num => ((acc <<< 3) + num) % 2 ^ 128) a) := by
  induction ds generalizing n a with
  | nil => simp
  | cons d t ih =>
    simp only [List.foldl_cons]
    rw [ih]
    simp only [Prod.mk.injEq, List.length_cons]
    exact ⟨by omega, trivial⟩

theorem enc_lt_gen (ds : List Nat) (h8 : ∀ d ∈ ds, d < 8) :
    ∀ k a, a < 8 ^ k →
      ds.foldl (fun acc num => acc * 8 + num) a < 8 ^ (k + ds.length) := by
  induction ds with
  | nil => intro k a ha; simpa using ha
  | cons d t ih =>
    intro k a ha
    have hd : d < 8 := h8 d (List.mem_cons_self d t)
    have hstep : a * 8 + d < 8 ^ (k + 1) := by
      have h1 : a + 1 ≤ 8 ^ k := ha
      calc a * 8 + d < (a + 1) * 8 := by omega
        _ ≤ 8 ^ k * 8 := Nat.mul_le_mul_right 8 h1
        _ = 8 ^ (k + 1) := by rw [pow_succ]
    have := ih (fun x hx => h8 x (List.mem_cons_of_mem d hx)) (k + 1) (a * 8 + d) hstep
    simpa [Nat.add_assoc, Nat.add_comm 1 t.length] using this

theorem enc_lt (ds : List Nat) (h8 : ∀ d ∈ ds, d < 8) :
    ds.foldl (fun acc num => acc * 8 + num) 0 < 8 ^ ds.length := by
  simpa using enc_lt_gen ds h8 0 0 (by norm_num)

/-- Below the wrap threshold the parsing fold is the plain base-8 fold. -/
theorem fold_mod_eq (ds : List Nat) (h8 : ∀ d ∈ ds, d < 8) :
    ∀ k a, a < 8 ^ k → k + ds.length ≤ 42 →
      ds.foldl (fun acc num => ((acc <<< 3) + num) % 2 ^ 128) a =
        ds.foldl (fun acc num => acc * 8 + num) a := by
  induction ds with
  | nil => intro k a _ _; rfl
  | cons d t ih =>
    intro k a ha hk
    have hd : d < 8 := h8 d (List.mem_cons_self d t)
    have hstep : a * 8 + d < 8 ^ (k + 1) := by
      have h1 : a + 1 ≤ 8 ^ k := ha
      calc a * 8 + d < (a + 1) * 8 := by omega
        _ ≤ 8 ^ k * 8 := Nat.mul_le_mul_right 8 h1
        _ = 8 ^ (k + 1) := by rw [pow_succ]
    have hlen : (d :: t).length = t.length + 1 := rfl
    have hsmall : a * 8 + d < 2 ^ 128 := by
      calc a * 8 + d < 8 ^ (k + 1) := hstep
        _ ≤ 8 ^ 42 := Nat.pow_le_pow_right (by norm_num) (by omega)
        _ < 2 ^ 128 := by norm_num
    have hsh : (a <<< 3) + d = a * 8 + d := by
      rw [Nat.shiftLeft_eq]
    simp only [List.foldl_cons, hsh, Nat.mod_eq_of_lt hsmall]
    exact ih (fun x hx => h8 x (List.mem_cons_of_mem d hx)) (k + 1) (a * 8 + d) hstep
      (by omega)

theorem enc_split (ds : List Nat) :
    ∀ a, ds.foldl (fun acc num => acc * 8 + num) a =
      a * 8 ^ ds.length + ds.foldl (fun acc num => acc * 8 + num) 0 := by
  induction ds with
  | nil => intro a; simp
  | cons d t ih =>
    intro a
    simp only [List.foldl_cons, Nat.zero_mul, Nat.zero_add, List.length_cons]
    rw [ih (a * 8 + d), ih d, pow_succ]
    ring

theorem get_at_enc (ds : List Nat) (h8 : ∀ d ∈ ds, d < 8) :
    ∀ i, i < ds.length →
      Burrow.get_at ⟨ds.length, ds.foldl (fun acc num => acc * 8 + num) 0⟩ i = ds.getD i 0 := by
  induction ds with
  | nil => intro i hi; simp at hi
  | cons d t ih =>
    intro i hi
    have h7 : (7 : Nat) = 2 ^ 3 - 1 := by norm_num
    have hd : d < 8 := h8 d (List.mem_cons_self d t)
    have h8t : ∀ x ∈ t, x < 8 := fun x hx => h8 x (List.mem_cons_of_mem d hx)
    have htl : t.foldl (fun acc num => acc * 8 + num) 0 < 8 ^ t.length := enc_lt t h8t
    have hrw : (d :: t).foldl (fun acc num => acc * 8 + num) 0 =
        d * 8 ^ t.length + t.foldl (fun acc num => acc * 8 + num) 0 := by
      rw [List.foldl_cons]
      simpa using enc_split t d
    rw [Burrow.get_at]
    simp only [hrw]
    cases i with
    | zero =>
      have hlen : (d :: t).length - 0 - 1 = t.length := by simp
      have hpow : (2 : Nat) ^ (t.length * 3) = 8 ^ t.length := by
        rw [Nat.mul_comm, pow_mul]; norm_num
      rw [hlen, h7, Nat.and_pow_two_sub_one_eq_mod _ 3, Nat.shiftRight_eq_div_pow, hpow]
      have hdiv : (d * 8 ^ t.length + t.foldl (fun acc num => acc * 8 + num) 0) /
          8 ^ t.length = d := by
        rw [Nat.mul_comm d (8 ^ t.length), Nat.mul_add_div (Nat.pos_pow_of_pos _ (by norm_num))]
        rw [Nat.div_eq_of_lt htl]
        exact Nat.add_zero d
      rw [hdiv, List.getD_cons_zero]
      exact Nat.mod_eq_of_lt (by omega : d < 2 ^ 3)
    | succ j =>
      have hj : j < t.length := by simpa using hi
      have hlen : (d :: t).length - (j + 1) - 1 = t.length - j - 1 := by simp
      rw [hlen, h7, Nat.and_pow_two_sub_one_eq_mod _ 3, Nat.shiftRight_eq_div_pow]
      have hsplit : d * 8 ^ t.length =
          2 ^ ((t.length - j - 1) * 3) * (d * 8 ^ (j + 1)) := by
        have h1 : (8 : Nat) ^ t.length = 8 ^ (t.length - j - 1) * 8 ^ (j + 1) := by
          rw [← pow_add]
          congr 1
          omega
        have h2 : (8 : Nat) ^ (t.length - j - 1) = 2 ^ ((t.length - j - 1) * 3) := by
          rw [Nat.mul_comm _ 3, pow_mul]; norm_num
        rw [h1, h2]; ring
      rw [hsplit, Nat.mul_add_div (Nat.pos_pow_of_pos _ (by norm_num))]
      obtain ⟨m, hm⟩ : (2 : Nat) ^ 3 ∣ d * 8 ^ (j + 1) := by
        have h8e : (8 : Nat) = 2 ^ 3 := by norm_num
        exact ⟨d * 8 ^ j, by rw [pow_succ, h8e]; ring⟩
      rw [hm, Nat.mul_add_mod]
      have hIH := ih h8t j hj
      rw [Burrow.get_at, h7, Nat.and_pow_two_sub_one_eq_mod _ 3,
        Nat.shiftRight_eq_div_pow] at hIH
      rw [List.getD_cons_succ]
      exact hIH

/-! ## The heap and distance-map models -/

theorem popMin_eq_none {l : List (Nat × Nat)} (h : popMin l = none) : l = [] := by
  cases l with
  | nil => rfl
  | cons x xs =>
    rw [popMin] at h
    split at h
    · exact absurd h (by simp)
    · split at h <;> exact absurd h (by simp)

theorem popMin_perm {l rest : List (Nat × Nat)} {m : Nat × Nat}
    (h : popMin l = some (m, rest)) : l.Perm (m :: rest) := by
  induction l generalizing m rest with
  | nil => simp [popMin] at h
  | cons x xs ih =>
    rw [popMin] at h
    split at h
    · rename_i hx
      simp only [Option.some.injEq, Prod.mk.injEq] at h
      obtain ⟨rfl, rfl⟩ := h
      rw [popMin_eq_none hx]
    · rename_i mr hx
      split at h
      · simp only [Option.some.injEq, Prod.mk.injEq] at h
        obtain ⟨rfl, rfl⟩ := h
        exact List.Perm.refl _
      · simp only [Option.some.injEq, Prod.mk.injEq] at h
        obtain ⟨rfl, rfl⟩ := h
        have hperm := ih hx
        exact (hperm.cons x).trans (List.Perm.swap mr.1 x mr.2)

theorem popMin_mem {l rest : List (Nat × Nat)} {m : Nat × Nat}
    (h : popMin l = some (m, rest)) : m ∈ l :=
  (popMin_perm h).mem_iff.mpr (List.mem_cons_self m rest)

theorem popMin_rest_subset {l rest : List (Nat × Nat)} {m : Nat × Nat}
    (h : popMin l = some (m, rest)) : ∀ x ∈ rest, x ∈ l :=
  fun x hx => (popMin_perm h).mem_iff.mpr (List.mem_cons_of_mem m hx)

theorem popMin_mem_rest {l rest : List (Nat × Nat)} {m x : Nat × Nat}
    (h : popMin l = some (m, rest)) (hx : x ∈ l) (hne : x ≠ m) : x ∈ rest := by
  have hmem := (popMin_perm h).mem_iff.mp hx
  rcases List.mem_cons.mp hmem with h1 | h1
  · exact absurd h1 hne
  · exact h1

theorem popMin_le {l rest : List (Nat × Nat)} {m : Nat × Nat}
    (h : popMin l = some (m, rest)) : ∀ x ∈ l, m.1 ≤ x.1 := by
  induction l generalizing m rest with
  | nil => simp [popMin] at h
  | cons x xs ih =>
    rw [popMin] at h
    split at h
    · rename_i hx
      simp only [Option.some.injEq, Prod.mk.injEq] at h
      obtain ⟨rfl, rfl⟩ := h
      intro y hy
      rw [popMin_eq_none hx] at hy
      simp only [List.mem_singleton] at hy
      rw [hy]
    · rename_i mr hx
      have hm0 := ih hx
      split at h
      · rename_i hrank
        simp only [Option.some.injEq, Prod.mk.injEq] at h
        obtain ⟨rfl, rfl⟩ := h
        intro y hy
        rcases List.mem_cons.mp hy with rfl | hmem
        · exact Nat.le_refl _
        · have h1 := hm0 y hmem
          simp only [heapPopRank, decide_eq_true_eq] at hrank
          omega
      · rename_i hrank
        simp only [Option.some.injEq, Prod.mk.injEq] at h
        obtain ⟨rfl, rfl⟩ := h
        intro y hy
        rcases List.mem_cons.mp hy with rfl | hmem
        · simp only [heapPopRank, decide_eq_true_eq] at hrank
          omega
        · exact hm0 y hmem

theorem findD_cases (d : List (Nat × Nat)) (p dflt : Nat) :
    findD d p dflt = dflt ∨ (p, findD d p dflt) ∈ d := by
  induction d with
  | nil => exact Or.inl rfl
  | cons kv rest ih =>
    rw [findD]
    split
    · rename_i hk
      right
      rw [hk]
      exact List.mem_cons_self _ _
    · rcases ih with h | h
      · exact Or.inl h
      · exact Or.inr (List.mem_cons_of_mem _ h)

theorem findD_lt_max {d : List (Nat × Nat)} {p : Nat}
    (h : findD d p usizeMax < usizeMax) : (p, findD d p usizeMax) ∈ d := by
  rcases findD_cases d p usizeMax with h1 | h1
  · omega
  · exact h1

theorem findD_le_max {d : List (Nat × Nat)} (hd : ∀ pc ∈ d, pc.2 < usizeMax) (p : Nat) :
    findD d p usizeMax ≤ usizeMax := by
  rcases findD_cases d p usizeMax with h | h
  · omega
  · exact Nat.le_of_lt (hd _ h)

/-! ## Reachability lemmas -/

theorem Reach.trans_edge {next : Nat → List (Nat × Nat)} {s v c e w}
    (h : Reach next s v c) (hew : (e, w) ∈ next v) : Reach next s w (c + e) :=
  Reach.step h hew

theorem Reach.bound {next : Nat → List (Nat × Nat)} {s bound : Nat}
    (hb : ∀ p, ∀ ew ∈ next p, ew.2 < bound) (hs : s < bound) :
    ∀ {v c}, Reach next s v c → v < bound := by
  intro v c h
  induction h with
  | refl => exact hs
  | step hprev hew ih => exact hb _ _ hew

/-! ## Relaxation lemmas -/

theorem relaxEdges_cons (cost : Nat) (e : Nat × Nat) (succs : List (Nat × Nat))
    (hd : List (Nat × Nat) × List (Nat × Nat)) :
    relaxEdges cost (e :: succs) hd =
      relaxEdges cost succs
        (if cost + e.1 < findD hd.2 e.2 usizeMax then
          ((cost + e.1, e.2) :: hd.1, (e.2, cost + e.1) :: hd.2)
        else hd) := by
  rw [relaxEdges, relaxEdges, List.foldl_cons]

theorem relax_heap_mono (cost : Nat) (succs : List (Nat × Nat)) :
    ∀ hd x, x ∈ hd.1 → x ∈ (relaxEdges cost succs hd).1 := by
  induction succs with
  | nil => intro hd x hx; exact hx
  | cons e t ih =>
    intro hd x hx
    rw [relaxEdges_cons]
    split
    · exact ih _ x (List.mem_cons_of_mem _ hx)
    · exact ih _ x hx

theorem relax_heap_src (cost : Nat) (succs : List (Nat × Nat)) :
    ∀ hd, (∀ pc ∈ hd.2, pc.2 < usizeMax) → ∀ x, x ∈ (relaxEdges cost succs hd).1 →
      x ∈ hd.1 ∨ ∃ ew ∈ succs, x = (cost + ew.1, ew.2) ∧ x.1 < usizeMax := by
  induction succs with
  | nil => intro hd _ x hx; exact Or.inl hx
  | cons e t ih =>
    intro hd hdmax x hx
    rw [relaxEdges_cons] at hx
    split at hx
    · rename_i hlt
      have hmax : cost + e.1 < usizeMax :=
        Nat.lt_of_lt_of_le hlt (findD_le_max hdmax e.2)
      have hdmax' : ∀ pc ∈ (e.2, cost + e.1) :: hd.2, pc.2 < usizeMax := by
        intro pc hpc
        rcases List.mem_cons.mp hpc with rfl | hpc2
        · exact hmax
        · exact hdmax pc hpc2
      rcases ih _ hdmax' x hx with h1 | h1
      · rcases List.mem_cons.mp h1 with rfl | h2
        · exact Or.inr ⟨e, List.mem_cons_self e t, rfl, hmax⟩
        · exact Or.inl h2
      · obtain ⟨ew, hew, hx1, hx2⟩ := h1
        exact Or.inr ⟨ew, List.mem_cons_of_mem e hew, hx1, hx2⟩
    · rcases ih _ hdmax x hx with h1 | h1
      · exact Or.inl h1
      · obtain ⟨ew, hew, hx1, hx2⟩ := h1
        exact Or.inr ⟨ew, List.mem_cons_of_mem e hew, hx1, hx2⟩

theorem relax_dist_src (cost : Nat) (succs : List (Nat × Nat)) :
    ∀ hd pc, pc ∈ (relaxEdges cost succs hd).2 →
      pc ∈ hd.2 ∨ ∃ ew ∈ succs, pc = (ew.2, cost + ew.1) := by
  induction succs with
  | nil => intro hd pc hpc; exact Or.inl hpc
  | cons e t ih =>
    intro hd pc hpc
    rw [relaxEdges_cons] at hpc
    split at hpc
    · rcases ih _ pc hpc with h1 | h1
      · rcases List.mem_cons.mp h1 with rfl | h2
        · exact Or.inr ⟨e, List.mem_cons_self e t, rfl⟩
        · exact Or.inl h2
      · obtain ⟨ew, hew, hx⟩ := h1
        exact Or.inr ⟨ew, List.mem_cons_of_mem e hew, hx⟩
    · rcases ih _ pc hpc with h1 | h1
      · exact Or.inl h1
      · obtain ⟨ew, hew, hx⟩ := h1
        exact Or.inr ⟨ew, List.mem_cons_of_mem e hew, hx⟩

theorem relax_dist_lt_max (cost : Nat) (succs : List (Nat × Nat)) :
    ∀ hd, (∀ pc ∈ hd.2, pc.2 < usizeMax) →
      ∀ pc ∈ (relaxEdges cost succs hd).2, pc.2 < usizeMax := by
  induction succs with
  | nil => intro hd hmax pc hpc; exact hmax pc hpc
  | cons e t ih =>
    intro hd hmax pc hpc
    rw [relaxEdges_cons] at hpc
    split at hpc
    · rename_i hlt
      have hnew : cost + e.1 < usizeMax :=
        Nat.lt_of_lt_of_le hlt (findD_le_max hmax e.2)
      refine ih _ ?_ pc hpc
      intro x hx
      rcases List.mem_cons.mp hx with rfl | hx2
      · exact hnew
      · exact hmax x hx2
    · exact ih _ hmax pc hpc

theorem relax_findD_le (cost : Nat) (succs : List (Nat × Nat)) :
    ∀ hd q, findD (relaxEdges cost succs hd).2 q usizeMax ≤ findD hd.2 q usizeMax := by
  induction succs with
  | nil => intro hd q; exact Nat.le_refl _
  | cons e t ih =>
    intro hd q
    rw [relaxEdges_cons]
    split
    · rename_i hlt
      refine Nat.le_trans (ih _ q) ?_
      rw [findD]
      split
      · rename_i hq
        simp only at hq
        rw [hq]
        exact Nat.le_of_lt hlt
      · exact Nat.le_refl _
    · exact ih _ q

theorem relax_findD_frozen (cost : Nat) (succs : List (Nat × Nat)) :
    ∀ hd u, findD hd.2 u usizeMax ≤ cost →
      findD (relaxEdges cost succs hd).2 u usizeMax = findD hd.2 u usizeMax := by
  induction succs with
  | nil => intro hd u _; rfl
  | cons e t ih =>
    intro hd u hle
    rw [relaxEdges_cons]
    split
    · rename_i hlt
      have hne : u ≠ e.2 := by
        intro hc
        rw [hc] at hle
        omega
      have hstep : findD ((e.2, cost + e.1) :: hd.2) u usizeMax = findD hd.2 u usizeMax := by
        rw [findD]
        split
        · rename_i hq
          exact absurd hq hne
        · rfl
      have := ih ((cost + e.1, e.2) :: hd.1, (e.2, cost + e.1) :: hd.2) u
        (by simpa [hstep] using hle)
      simpa [hstep] using this
    · exact ih _ u hle

theorem relax_processed (cost : Nat) (succs : List (Nat × Nat)) :
    ∀ hd, ∀ ew ∈ succs,
      findD (relaxEdges cost succs hd).2 ew.2 usizeMax ≤ cost + ew.1 := by
  induction succs with
  | nil => intro hd ew hew; simp at hew
  | cons e t ih =>
    intro hd ew hew
    rcases List.mem_cons.mp hew with rfl | hmem
    · rw [relaxEdges_cons]
      split
      · refine Nat.le_trans (relax_findD_le cost t _ ew.2) ?_
        rw [findD]
        split
        · exact Nat.le_refl _
        · rename_i hq
          exact absurd rfl hq
      · rename_i hnlt
        refine Nat.le_trans (relax_findD_le cost t _ ew.2) ?_
        omega
    · rw [relaxEdges_cons]
      split
      · exact ih _ ew hmem
      · exact ih _ ew hmem

theorem relax_dist_heap (cost : Nat) (succs : List (Nat × Nat)) :
    ∀ hd q, findD (relaxEdges cost succs hd).2 q usizeMax ≠ findD hd.2 q usizeMax →
      (findD (relaxEdges cost succs hd).2 q usizeMax, q) ∈ (relaxEdges cost succs hd).1 := by
  induction succs with
  | nil => intro hd q hne; exact absurd rfl hne
  | cons e t ih =>
    intro hd q hne
    rw [relaxEdges_cons] at hne ⊢
    by_cases hlt : cost + e.1 < findD hd.2 e.2 usizeMax
    · rw [if_pos hlt] at hne ⊢
      by_cases hmid : findD (relaxEdges cost t
          ((cost + e.1, e.2) :: hd.1, (e.2, cost + e.1) :: hd.2)).2 q usizeMax =
          findD ((e.2, cost + e.1) :: hd.2) q usizeMax
      · have hq : q = e.2 := by
          by_contra hq
          apply hne
          rw [hmid, findD]
          split
          · rename_i hq2
            exact absurd hq2 hq
          · rfl
        subst hq
        have hhead : findD ((e.2, cost + e.1) :: hd.2) e.2 usizeMax = cost + e.1 := by
          rw [findD]
          split
          · rfl
          · rename_i hq2
            exact absurd rfl hq2
        rw [hmid, hhead]
        exact relax_heap_mono cost t _ _ (List.mem_cons_self _ _)
      · exact ih ((cost + e.1, e.2) :: hd.1, (e.2, cost + e.1) :: hd.2) q hmid
    · rw [if_neg hlt] at hne ⊢
      exact ih hd q hne

/-! ## Invariant preservation for the search loop -/

theorem usizeMax_pos : 0 < usizeMax := by norm_num [usizeMax]

/-- The frontier property: every path cost is dominated by a heap entry,
or ends in a relaxed `done` vertex, or exceeds the `usize` default. -/
theorem DInv.pathinv {next : Nat → List (Nat × Nat)} {isGoal : Nat → Bool}
    {s bound : Nat} {heap dist : List (Nat × Nat)} {done : Finset Nat}
    (inv : DInv next isGoal s bound heap dist done) :
    ∀ v k, Reach next s v k →
      (∃ cp ∈ heap, cp.1 ≤ k) ∨ (v ∈ done ∧ findD dist v usizeMax ≤ k) ∨
        usizeMax ≤ k := by
  intro v k h
  induction h with
  | refl =>
    by_cases hs : s ∈ done
    · exact Or.inr (Or.inl ⟨hs, inv.start_zero.le⟩)
    · have hmem := inv.open_in_heap s hs (by rw [inv.start_zero]; exact usizeMax_pos)
      rw [inv.start_zero] at hmem
      exact Or.inl ⟨(0, s), hmem, Nat.le_refl 0⟩
  | step hprev hew ih =>
    rename_i v0 c0 e0 w0
    rcases ih with h1 | h2 | h3
    · obtain ⟨cp, hcp, hle⟩ := h1
      exact Or.inl ⟨cp, hcp, by omega⟩
    · have hrel := inv.done_relaxed v0 h2.1 (e0, w0) hew
      have h2le := h2.2
      by_cases hw : findD dist w0 usizeMax < usizeMax
      · by_cases hwdone : w0 ∈ done
        · refine Or.inr (Or.inl ⟨hwdone, ?_⟩)
          simp only at hrel
          omega
        · have hmem := inv.open_in_heap w0 hwdone hw
          refine Or.inl ⟨(findD dist w0 usizeMax, w0), hmem, ?_⟩
          simp only at hrel ⊢
          omega
      · refine Or.inr (Or.inr ?_)
        simp only at hrel
        omega
    · exact Or.inr (Or.inr (by omega))

/-- Discarding a stale entry preserves the invariant. -/
theorem DInv.stale {next : Nat → List (Nat × Nat)} {isGoal : Nat → Bool}
    {s bound : Nat} {heap dist rest : List (Nat × Nat)} {done : Finset Nat} {c p : Nat}
    (inv : DInv next isGoal s bound heap dist done)
    (hpop : popMin heap = some ((c, p), rest))
    (hstale : findD dist p usizeMax < c) :
    DInv next isGoal s bound rest dist done := by
  refine { heap_sound := fun cp hcp => inv.heap_sound cp (popMin_rest_subset hpop cp hcp),
           heap_lt_max := fun cp hcp => inv.heap_lt_max cp (popMin_rest_subset hpop cp hcp),
           heap_findD := fun cp hcp => inv.heap_findD cp (popMin_rest_subset hpop cp hcp),
           dist_sound := inv.dist_sound,
           dist_lt_max := inv.dist_lt_max,
           start_zero := inv.start_zero,
           open_in_heap := ?_,
           done_relaxed := inv.done_relaxed,
           done_le_heap := fun u hu cp hcp =>
             inv.done_le_heap u hu cp (popMin_rest_subset hpop cp hcp),
           done_not_goal := inv.done_not_goal,
           done_bound := inv.done_bound }
  intro q hq hlt
  have hmem := inv.open_in_heap q hq hlt
  refine popMin_mem_rest hpop hmem ?_
  intro hc
  have h1 : q = p := congrArg Prod.snd hc
  have h2 : findD dist q usizeMax = c := congrArg Prod.fst hc
  rw [h1] at h2
  omega

/-- Popping a fresh minimal entry and relaxing its edges preserves the
invariant, with the popped state joining `done`. -/
theorem DInv.relax_step {next : Nat → List (Nat × Nat)} {isGoal : Nat → Bool}
    {s bound : Nat} {heap dist rest : List (Nat × Nat)} {done : Finset Nat} {c p : Nat}
    (inv : DInv next isGoal s bound heap dist done)
    (hb : ∀ q, ∀ ew ∈ next q, ew.2 < bound) (hs : s < bound)
    (hpop : popMin heap = some ((c, p), rest))
    (hgoal : isGoal p = false)
    (hnstale : ¬ findD dist p usizeMax < c) :
    DInv next isGoal s bound (relaxEdges c (next p) (rest, dist)).1
      (relaxEdges c (next p) (rest, dist)).2 (insert p done) := by
  have hcp_mem : (c, p) ∈ heap := popMin_mem hpop
  have hreach_p : Reach next s p c := inv.heap_sound _ hcp_mem
  have hfind_eq : findD dist p usizeMax = c :=
    Nat.le_antisymm (inv.heap_findD _ hcp_mem) (Nat.le_of_not_lt hnstale)
  have hc_lt_max : c < usizeMax := inv.heap_lt_max _ hcp_mem
  have hdone_le_c : ∀ u ∈ insert p done, findD dist u usizeMax ≤ c := by
    intro u hu
    rcases Finset.mem_insert.mp hu with rfl | hu2
    · exact hfind_eq.le
    · exact inv.done_le_heap u hu2 _ hcp_mem
  have hrest_sub : ∀ x ∈ rest, x ∈ heap := popMin_rest_subset hpop
  have F1 : ∀ pc ∈ (relaxEdges c (next p) (rest, dist)).2, pc.2 < usizeMax :=
    relax_dist_lt_max c (next p) (rest, dist) inv.dist_lt_max
  have F2 : ∀ q, findD (relaxEdges c (next p) (rest, dist)).2 q usizeMax ≤
      findD dist q usizeMax := relax_findD_le c (next p) (rest, dist)
  have F3 : ∀ u, findD dist u usizeMax ≤ c →
      findD (relaxEdges c (next p) (rest, dist)).2 u usizeMax = findD dist u usizeMax :=
    relax_findD_frozen c (next p) (rest, dist)
  have F4 : ∀ ew ∈ next p, findD (relaxEdges c (next p) (rest, dist)).2 ew.2 usizeMax ≤
      c + ew.1 := relax_processed c (next p) (rest, dist)
  have F5 := relax_heap_src c (next p) (rest, dist) inv.dist_lt_max
  have F6 := relax_heap_mono c (next p) (rest, dist)
  have F7 := relax_dist_src c (next p) (rest, dist)
  have F8 := relax_dist_heap c (next p) (rest, dist)
  refine { heap_sound := ?_, heap_lt_max := ?_, heap_findD := ?_, dist_sound := ?_,
           dist_lt_max := F1, start_zero := ?_, open_in_heap := ?_, done_relaxed := ?_,
           done_le_heap := ?_, done_not_goal := ?_, done_bound := ?_ }
  · intro cp hcp
    rcases F5 cp hcp with h1 | ⟨ew, hew, hx, -⟩
    · exact inv.heap_sound cp (hrest_sub cp h1)
    · rw [hx]
      exact Reach.step hreach_p (by simpa using hew)
  · intro cp hcp
    rcases F5 cp hcp with h1 | ⟨ew, hew, hx, hmax⟩
    · exact inv.heap_lt_max cp (hrest_sub cp h1)
    · exact hmax
  · intro cp hcp
    rcases F5 cp hcp with h1 | ⟨ew, hew, hx, -⟩
    · exact Nat.le_trans (F2 cp.2) (inv.heap_findD cp (hrest_sub cp h1))
    · rw [hx]
      exact F4 ew hew
  · intro pc hpc
    rcases F7 pc hpc with h1 | ⟨ew, hew, hx⟩
    · exact inv.dist_sound pc h1
    · rw [hx]
      exact Reach.step hreach_p (by simpa using hew)
  · rw [F3 s (by rw [inv.start_zero]; omega), inv.start_zero]
  · intro q hq hlt
    by_cases hchg : findD (relaxEdges c (next p) (rest, dist)).2 q usizeMax =
        findD dist q usizeMax
    · rw [hchg] at hlt ⊢
      have hqdone : q ∉ done := fun hc => hq (Finset.mem_insert_of_mem hc)
      have hmem := inv.open_in_heap q hqdone hlt
      refine F6 _ (popMin_mem_rest hpop hmem ?_)
      intro hc
      have h1 : q = p := congrArg Prod.snd hc
      exact hq (h1 ▸ Finset.mem_insert_self p done)
    · exact F8 q hchg
  · intro u hu ew hew
    rcases Finset.mem_insert.mp hu with rfl | hu2
    · rw [F3 u hfind_eq.le, hfind_eq]
      exact F4 ew hew
    · rw [F3 u (hdone_le_c u (Finset.mem_insert_of_mem hu2))]
      exact Nat.le_trans (F2 ew.2) (inv.done_relaxed u hu2 ew hew)
  · intro u hu cp hcp
    rw [F3 u (hdone_le_c u hu)]
    rcases F5 cp hcp with h1 | ⟨ew, hew, hx, -⟩
    · rcases Finset.mem_insert.mp hu with rfl | hu2
      · rw [hfind_eq]
        exact popMin_le hpop cp (hrest_sub cp h1)
      · exact inv.done_le_heap u hu2 cp (hrest_sub cp h1)
    · rw [hx]
      have := hdone_le_c u hu
      simp only
      omega
  · intro u hu
    rcases Finset.mem_insert.mp hu with rfl | hu2
    · exact hgoal
    · exact inv.done_not_goal u hu2
  · intro u hu
    rcases Finset.mem_insert.mp hu with rfl | hu2
    · exact Reach.bound hb hs hreach_p
    · exact inv.done_bound u hu2

/-! ## The search loop: agreement, soundness, termination -/

theorem ghost_eq (next : Nat → List (Nat × Nat)) (isGoal : Nat → Bool) :
    ∀ fuel heap dist done,
      ghostLoop next isGoal fuel heap dist done = dijkstraLoop next isGoal fuel heap dist := by
  intro fuel
  induction fuel with
  | zero => intro heap dist done; rfl
  | succ f ih =>
    intro heap dist done
    rw [ghostLoop, dijkstraLoop]
    cases hp : popMin heap with
    | none => rfl
    | some cpr =>
      simp only
      split
      · rfl
      · split
        · exact ih _ _ _
        · exact ih _ _ _

theorem dijkstraLoop_mono (next : Nat → List (Nat × Nat)) (isGoal : Nat → Bool) :
    ∀ fuel heap dist r, dijkstraLoop next isGoal fuel heap dist = some r →
      dijkstraLoop next isGoal (fuel + 1) heap dist = some r := by
  intro fuel
  induction fuel with
  | zero => intro heap dist r h; exact absurd h (by rw [dijkstraLoop]; simp)
  | succ f ih =>
    intro heap dist r h
    rw [dijkstraLoop] at h
    rw [dijkstraLoop]
    cases hp : popMin heap with
    | none => rw [hp] at h; exact h
    | some cpr =>
      rw [hp] at h
      simp only at h ⊢
      split at h
      · rename_i hg
        rw [if_pos hg]
        exact h
      · split at h
        · rename_i hg hstale
          rw [if_neg hg, if_pos hstale]
          exact ih _ _ r h
        · rename_i hg hstale
          rw [if_neg hg, if_neg hstale]
          exact ih _ _ r h

theorem dijkstraLoop_mono_le (next : Nat → List (Nat × Nat)) (isGoal : Nat → Bool)
    {N M : Nat} (hNM : N ≤ M) {heap dist : List (Nat × Nat)} {r : Option Nat}
    (h : dijkstraLoop next isGoal N heap dist = some r) :
    dijkstraLoop next isGoal M heap dist = some r := by
  induction M with
  | zero =>
    have : N = 0 := by omega
    rw [← this]
    exact h
  | succ m ih =>
    rcases Nat.lt_or_ge N (m + 1) with h1 | h1
    · exact dijkstraLoop_mono next isGoal m heap dist r (ih (by omega))
    · have : N = m + 1 := by omega
      rw [← this]
      exact h

theorem DInv_init (next : Nat → List (Nat × Nat)) (isGoal : Nat → Bool) {s bound : Nat}
    (hs : s < bound) : DInv next isGoal s bound [(0, s)] [(s, 0)] ∅ := by
  refine { heap_sound := ?_, heap_lt_max := ?_, heap_findD := ?_, dist_sound := ?_,
           dist_lt_max := ?_, start_zero := ?_, open_in_heap := ?_, done_relaxed := ?_,
           done_le_heap := ?_, done_not_goal := ?_, done_bound := ?_ }
  · intro cp hcp
    rw [List.mem_singleton] at hcp
    rw [hcp]
    exact Reach.refl
  · intro cp hcp
    rw [List.mem_singleton] at hcp
    rw [hcp]
    exact usizeMax_pos
  · intro cp hcp
    rw [List.mem_singleton] at hcp
    rw [hcp]
    simp [findD]
  · intro pc hpc
    rw [List.mem_singleton] at hpc
    rw [hpc]
    exact Reach.refl
  · intro pc hpc
    rw [List.mem_singleton] at hpc
    rw [hpc]
    exact usizeMax_pos
  · simp [findD]
  · intro q hq hlt
    by_cases hqs : q = s
    · subst hqs
      simp only [findD, if_pos rfl]
      exact List.mem_singleton.mpr rfl
    · rw [findD] at hlt
      rw [if_neg hqs] at hlt
      rw [findD] at hlt
      omega
  · intro u hu
    simp at hu
  · intro u hu
    simp at hu
  · intro u hu
    simp at hu
  · intro u hu
    simp at hu

/-- Soundness of a finished run: a returned cost is the exact minimum over
all goal states and all path costs; a `none` return means every goal path
costs at least `usize::MAX`. -/
theorem ghost_sound {next : Nat → List (Nat × Nat)} {isGoal : Nat → Bool} {s bound : Nat}
    (hb : ∀ q, ∀ ew ∈ next q, ew.2 < bound) (hs : s < bound) :
    ∀ fuel heap dist done r,
      DInv next isGoal s bound heap dist done →
      ghostLoop next isGoal fuel heap dist done = some r →
      (∀ c, r = some c → (∃ g, isGoal g = true ∧ Reach next s g c) ∧
        (∀ v k, isGoal v = true → Reach next s v k → c ≤ k)) ∧
      (r = none → ∀ v k, isGoal v = true → Reach next s v k → usizeMax ≤ k) := by
  intro fuel
  induction fuel with
  | zero => intro heap dist done r inv h; exact absurd h (by rw [ghostLoop]; simp)
  | succ f ih =>
    intro heap dist done r inv h
    rw [ghostLoop] at h
    cases hp : popMin heap with
    | none =>
      rw [hp] at h
      have hr : r = none := by simpa using h.symm
      subst hr
      refine ⟨fun c hc => absurd hc (by simp), fun _ v k hgv hreach => ?_⟩
      rcases inv.pathinv v k hreach with ⟨cp, hcp, -⟩ | ⟨hvdone, -⟩ | h3
      · rw [popMin_eq_none hp] at hcp
        simp at hcp
      · rw [inv.done_not_goal v hvdone] at hgv
        simp at hgv
      · exact h3
    | some cpr =>
      rw [hp] at h
      obtain ⟨⟨c, p⟩, rest⟩ := cpr
      simp only at h
      split at h
      · rename_i hg
        have hr : r = some c := by simpa using h.symm
        subst hr
        refine ⟨fun c0 hc0 => ?_, fun hc => absurd hc (by simp)⟩
        have hcc : c0 = c := by simpa [eq_comm] using hc0
        rw [hcc]
        refine ⟨⟨p, hg, inv.heap_sound _ (popMin_mem hp)⟩, fun v k hgv hreach => ?_⟩
        rcases inv.pathinv v k hreach with ⟨cp, hcp, hle⟩ | ⟨hvdone, -⟩ | h3
        · have := popMin_le hp cp hcp
          omega
        · rw [inv.done_not_goal v hvdone] at hgv
          simp at hgv
        · have : c < usizeMax := inv.heap_lt_max _ (popMin_mem hp)
          omega
      · rename_i hg
        split at h
        · rename_i hstale
          exact ih rest dist done r (inv.stale hp hstale) h
        · rename_i hnstale
          have hgf : isGoal p = false := by simpa using hg
          exact ih _ _ _ r (inv.relax_step hb hs hp hgf hnstale) h

theorem relax_no_push (cost : Nat) (succs : List (Nat × Nat)) :
    ∀ hd, (∀ ew ∈ succs, ¬ cost + ew.1 < findD hd.2 ew.2 usizeMax) →
      relaxEdges cost succs hd = hd := by
  induction succs with
  | nil => intro hd _; rfl
  | cons e t ih =>
    intro hd hno
    rw [relaxEdges_cons, if_neg (hno e (List.mem_cons_self e t))]
    exact ih hd (fun ew hew => hno ew (List.mem_cons_of_mem e hew))

/-- With enough fuel the ghost loop finishes: each iteration either pops the
goal, shrinks the heap (stale entries and re-pops of `done` states push
nothing), or grows `done` inside `Finset.range bound`. -/
theorem ghost_terminates {next : Nat → List (Nat × Nat)} {isGoal : Nat → Bool}
    {s bound : Nat} (hb : ∀ q, ∀ ew ∈ next q, ew.2 < bound) (hs : s < bound) :
    ∀ K n₂ heap dist done,
      DInv next isGoal s bound heap dist done →
      bound - done.card ≤ K → heap.length ≤ n₂ →
      ∃ fuel r, ghostLoop next isGoal fuel heap dist done = some r := by
  intro K
  induction K using Nat.strong_induction_on with
  | _ K IHK =>
    intro n₂
    induction n₂ with
    | zero =>
      intro heap dist done inv hK hlen
      have hnil : heap = [] := List.length_eq_zero.mp (Nat.le_zero.mp hlen)
      refine ⟨1, none, ?_⟩
      rw [hnil, ghostLoop]
      rfl
    | succ n ihn =>
      intro heap dist done inv hK hlen
      cases hp : popMin heap with
      | none =>
        refine ⟨1, none, ?_⟩
        rw [ghostLoop, hp]
      | some cpr =>
        obtain ⟨⟨c, p⟩, rest⟩ := cpr
        have hlen_rest : rest.length ≤ n := by
          have hplen := (popMin_perm hp).length_eq
          simp only [List.length_cons] at hplen
          omega
        by_cases hg : isGoal p = true
        · refine ⟨1, some c, ?_⟩
          rw [ghostLoop, hp]
          simp [hg]
        · have hgf : isGoal p = false := by simpa using hg
          by_cases hstale : findD dist p usizeMax < c
          · obtain ⟨fuel, r, hrun⟩ := ihn rest dist done (inv.stale hp hstale) hK hlen_rest
            refine ⟨fuel + 1, r, ?_⟩
            rw [ghostLoop, hp]
            simp only [hgf, Bool.false_eq_true, if_false, if_pos hstale]
            exact hrun
          · have hfind_eq : findD dist p usizeMax = c :=
              Nat.le_antisymm (inv.heap_findD _ (popMin_mem hp)) (Nat.le_of_not_lt hstale)
            by_cases hpdone : p ∈ done
            · -- a fresh pop of an already-relaxed state pushes nothing
              have hnopush : relaxEdges c (next p) (rest, dist) = (rest, dist) := by
                refine relax_no_push c (next p) (rest, dist) ?_
                intro ew hew
                have := inv.done_relaxed p hpdone ew hew
                rw [hfind_eq] at this
                show ¬ c + ew.1 < findD dist ew.2 usizeMax
                omega
              have hinv2 : DInv next isGoal s bound rest dist done := by
                have hstep := inv.relax_step hb hs hp hgf hstale
                rw [hnopush, Finset.insert_eq_self.mpr hpdone] at hstep
                exact hstep
              obtain ⟨fuel, r, hrun⟩ := ihn rest dist done hinv2 hK hlen_rest
              refine ⟨fuel + 1, r, ?_⟩
              rw [ghostLoop, hp]
              simp only [hgf, Bool.false_eq_true, if_false, if_neg hstale]
              rw [hnopush, Finset.insert_eq_self.mpr hpdone]
              exact hrun
            · -- a genuinely new state joins done
              have hstep := inv.relax_step hb hs hp hgf hstale
              have hpbound : p < bound := hstep.done_bound p (Finset.mem_insert_self p done)
              have hcard : done.card < bound := by
                have hsub : insert p done ⊆ Finset.range bound := fun u hu =>
                  Finset.mem_range.mpr (hstep.done_bound u hu)
                have hle := Finset.card_le_card hsub
                rw [Finset.card_insert_of_not_mem hpdone, Finset.card_range] at hle
                omega
              have hK2 : bound - (insert p done).card ≤ bound - done.card - 1 := by
                rw [Finset.card_insert_of_not_mem hpdone]
                omega
              have hKlt : bound - done.card - 1 < K := by omega
              obtain ⟨fuel, r, hrun⟩ := IHK (bound - done.card - 1) hKlt
                (relaxEdges c (next p) (rest, dist)).1.length
                (relaxEdges c (next p) (rest, dist)).1
                (relaxEdges c (next p) (rest, dist)).2 (insert p done)
                hstep hK2 (Nat.le_refl _)
              refine ⟨fuel + 1, r, ?_⟩
              rw [ghostLoop, hp]
              simp only [hgf, Bool.false_eq_true, if_false, if_neg hstale]
              exact hrun

/-! ## Claims C6 and C7 -/

/-- Claim C6: encoding and decoding are mutually inverse over the valid
per-cell alphabet: for every string over `.`, `A`, `B`, `C`, `D` of a length
the packed `u128` representation can hold (`3 · len ≤ 128`, which covers every
topology of the data model up to the documented depth 8), rendering
`Burrow::from(s)` via `Display` yields `s` again. -/
theorem c6_encode_decode_roundtrip (s : List Char)
    (hval : ∀ c ∈ s, c = '.' ∨ c = 'A' ∨ c = 'B' ∨ c = 'C' ∨ c = 'D')
    (hlen : s.length ≤ 42) :
    (Burrow.fromStr s).render = s := by
  have hmap : s.filterMap parse_letter = s.map (fun c => (parse_letter c).getD 0) :=
    filterMap_parse_of_valid s hval
  have h8 : ∀ d ∈ s.map (fun c => (parse_letter c).getD 0), d < 8 := by
    intro d hd
    rw [List.mem_map] at hd
    obtain ⟨c, hc, rfl⟩ := hd
    obtain ⟨d', hd', hlt, -⟩ := valid_char_parse (hval c hc)
    rw [hd']
    simpa using hlt
  have hdslen : (s.map (fun c => (parse_letter c).getD 0)).length = s.length :=
    List.length_map s _
  have hfrom : Burrow.fromStr s =
      ⟨(s.map (fun c => (parse_letter c).getD 0)).length,
        (s.map (fun c => (parse_letter c).getD 0)).foldl (fun acc num => acc * 8 + num) 0⟩ := by
    rw [Burrow.fromStr]
    simp only [hmap, fromStr_fold_pair, Nat.zero_add]
    rw [fold_mod_eq _ h8 0 0 (by norm_num) (by omega)]
  rw [hfrom]
  apply List.ext_getElem
  · simp only [Burrow.render, List.length_map, List.length_range]
  · intro n h1 h2
    simp only [Burrow.render, List.getElem_map, List.getElem_range] at h1 ⊢
    simp only [List.length_map] at h1
    have hn : n < s.length := by simpa [Burrow.render, hdslen] using h2
    rw [get_at_enc _ h8 n (by simpa [hdslen] using hn)]
    rw [List.getD_eq_getElem _ 0 (by simpa [hdslen] using hn)]
    simp only [List.getElem_map]
    obtain ⟨d', hd', -, hcell⟩ := valid_char_parse (hval s[n] (List.getElem_mem hn))
    rw [hd']
    simpa using hcell

/-- Witness for claim C6 at the sample start string. -/
theorem c6_encode_decode_roundtrip_witness :
    (∀ c ∈ sampleChars, c = '.' ∨ c = 'A' ∨ c = 'B' ∨ c = 'C' ∨ c = 'D') ∧
      sampleChars.length ≤ 42 ∧ (Burrow.fromStr sampleChars).render = sampleChars :=
  ⟨by decide, by decide, c6_encode_decode_roundtrip sampleChars (by decide) (by decide)⟩

/-- Claim C7: for positions `a, c < len`, `swap` exchanges the two cell values,
leaves every other cell unchanged (the original burrow is a value and is never
mutated), and applying the same swap twice gives back the original burrow
(the burrow being within the packed range). -/
theorem c7_with_swap_spec (b : Burrow) {a c : Nat} (ha : a < b.len) (hc : c < b.len)
    (hb : b.positions < 2 ^ (b.len * 3)) :
    (b.swap a c).get_at a = b.get_at c ∧ (b.swap a c).get_at c = b.get_at a ∧
      (∀ q < b.len, q ≠ a → q ≠ c → (b.swap a c).get_at q = b.get_at q) ∧
      (b.swap a c).swap a c = b :=
  ⟨get_at_swap_fst b ha hc, get_at_swap_snd b ha hc,
    fun q hq hqa hqc => get_at_swap_other b ha hc hq hqa hqc, swap_swap b ha hc hb⟩

/-! ## Claim C8: the layout of `build_goal` -/

theorem get_at_eq_div_mod (b : Burrow) (p : Nat) :
    b.get_at p = b.positions / 2 ^ ((b.len - p - 1) * 3) % 8 := by
  have h7 : (7 : Nat) = 2 ^ 3 - 1 := by norm_num
  rw [Burrow.get_at, Nat.shiftRight_eq_div_pow, h7, Nat.and_pow_two_sub_one_eq_mod]

theorem build_goal_len (D : Nat) : (build_goal D).len = D * 4 + 7 := rfl

theorem build_goal_succ_raw (D : Nat) :
    (build_goal (D + 1)).positions =
      ((build_goal D).positions * 4096 + 668) % 2 ^ 128 := by
  show (List.range (D + 1)).foldl
      (fun acc _ => ((acc <<< 12) + ((1 <<< 9) + (2 <<< 6) + (3 <<< 3) + 4)) % 2 ^ 128) 0 =
    ((List.range D).foldl
      (fun acc _ => ((acc <<< 12) + ((1 <<< 9) + (2 <<< 6) + (3 <<< 3) + 4)) % 2 ^ 128) 0
        * 4096 + 668) % 2 ^ 128
  rw [List.range_succ, List.foldl_append, List.foldl_cons, List.foldl_nil, Nat.shiftLeft_eq]
  have hrow : (1 <<< 9) + (2 <<< 6) + (3 <<< 3) + 4 = 668 := by decide
  rw [hrow]

theorem build_goal_pos_lt (D : Nat) (hD : D ≤ 10) :
    (build_goal D).positions < 2 ^ (12 * D) := by
  induction D with
  | zero => simp [build_goal]
  | succ Dp ih =>
    have h1 : (build_goal Dp).positions < 2 ^ (12 * Dp) := ih (by omega)
    have h2 : (build_goal Dp).positions * 4096 + 668 < 2 ^ (12 * (Dp + 1)) := by
      have h3 : ((build_goal Dp).positions + 1) * 4096 ≤ 2 ^ (12 * Dp) * 4096 :=
        Nat.mul_le_mul_right 4096 h1
      have h4 : (2 : Nat) ^ (12 * Dp) * 4096 = 2 ^ (12 * (Dp + 1)) := by
        have : 12 * (Dp + 1) = 12 * Dp + 12 := by ring
        rw [this, pow_add]
        norm_num
      omega
    have h5 : (build_goal Dp).positions * 4096 + 668 < 2 ^ 128 := by
      calc (build_goal Dp).positions * 4096 + 668 < 2 ^ (12 * (Dp + 1)) := h2
        _ ≤ 2 ^ 128 := Nat.pow_le_pow_right (by norm_num) (by omega)
    rw [build_goal_succ_raw, Nat.mod_eq_of_lt h5]
    exact h2

theorem build_goal_succ (D : Nat) (hD : D ≤ 9) :
    (build_goal (D + 1)).positions = (build_goal D).positions * 4096 + 668 := by
  have h1 := build_goal_pos_lt D (by omega)
  have h2 : (build_goal D).positions * 4096 + 668 < 2 ^ 128 := by
    have h3 : ((build_goal D).positions + 1) * 4096 ≤ 2 ^ (12 * D) * 4096 :=
      Nat.mul_le_mul_right 4096 h1
    have h4 : (2 : Nat) ^ (12 * D) * 4096 ≤ 2 ^ 128 := by
      have h5 : (2 : Nat) ^ (12 * D) * 4096 = 2 ^ (12 * D + 12) := by
        rw [pow_add]; norm_num
      rw [h5]
      exact Nat.pow_le_pow_right (by norm_num) (by omega)
    omega
  rw [build_goal_succ_raw, Nat.mod_eq_of_lt h2]

theorem get_at_build_goal_hall (D : Nat) (hD : D ≤ 10) {i : Nat} (hi : i < 7) :
    (build_goal D).get_at i = 0 := by
  rw [get_at_eq_div_mod, build_goal_len]
  have h1 : (build_goal D).positions < 2 ^ ((D * 4 + 7 - i - 1) * 3) := by
    calc (build_goal D).positions < 2 ^ (12 * D) := build_goal_pos_lt D hD
      _ ≤ 2 ^ ((D * 4 + 7 - i - 1) * 3) := Nat.pow_le_pow_right (by norm_num) (by omega)
  rw [Nat.div_eq_of_lt h1]

theorem get_at_build_goal_room (D : Nat) (hD : D ≤ 10) :
    ∀ d r, d < D → r < 4 → (build_goal D).get_at (7 + 4 * d + r) = r + 1 := by
  induction D with
  | zero => intro d r hd _; omega
  | succ Dp ih =>
    intro d r hd hr
    rw [get_at_eq_div_mod, build_goal_len]
    have hsub : ((Dp + 1) * 4 + 7 - (7 + 4 * d + r) - 1) = 4 * (Dp - d) + (3 - r) := by
      omega
    rw [hsub, build_goal_succ Dp (by omega)]
    rcases Nat.lt_or_ge d Dp with hcase | hcase
    · -- an older row: strip the bottom row and use the induction hypothesis
      have hsplit : (4 * (Dp - d) + (3 - r)) * 3 =
          12 + (4 * (Dp - d - 1) + (3 - r)) * 3 := by omega
      have hpow : (2 : Nat) ^ ((4 * (Dp - d) + (3 - r)) * 3) =
          4096 * 2 ^ ((4 * (Dp - d - 1) + (3 - r)) * 3) := by
        rw [hsplit, pow_add]
        norm_num
      rw [hpow, ← Nat.div_div_eq_div_mul]
      have hdiv : ((build_goal Dp).positions * 4096 + 668) / 4096 =
          (build_goal Dp).positions := by
        rw [Nat.mul_comm, Nat.mul_add_div (by norm_num)]
        norm_num
      rw [hdiv]
      have hIH := ih (by omega) d r hcase hr
      rw [get_at_eq_div_mod, build_goal_len] at hIH
      have hsub2 : (Dp * 4 + 7 - (7 + 4 * d + r) - 1) = 4 * (Dp - d - 1) + (3 - r) := by
        omega
      rwa [hsub2] at hIH
    · -- the bottom row: the digit comes from the row constant 668
      have hs3 : (4 * (Dp - d) + (3 - r)) * 3 = (3 - r) * 3 := by omega
      rw [hs3]
      interval_cases r
      · show ((build_goal Dp).positions * 4096 + 668) / 512 % 8 = 0 + 1
        omega
      · show ((build_goal Dp).positions * 4096 + 668) / 64 % 8 = 1 + 1
        omega
      · show ((build_goal Dp).positions * 4096 + 668) / 8 % 8 = 2 + 1
        omega
      · show ((build_goal Dp).positions * 4096 + 668) / 1 % 8 = 3 + 1
        omega

/-- Claim C8 (counterexample): the claimed depth-first per-room layout is
wrong.  It would put category A (value 1) in slot `7 + 0·D + d`; at depth 2
slot `7 + 0·2 + 1 = 8` actually holds category B (value 2). -/
theorem c8_per_room_layout_cex : (build_goal 2).get_at (7 + 0 * 2 + 1) ≠ 0 + 1 := by
  decide

/-- Claim C8 (amended): the encoded cell sequence is the 7 hallway stops
followed by the side-rooms stored row by row (reading like a book): room `r`
at depth `d` occupies slot `7 + 4·d + r`.  In particular `build_goal D`
decodes to 7 empty hallway cells followed by `D` repetitions of the row
`A B C D` (for every depth the `u128` representation can hold). -/
theorem c8_room_layout_row_major (D : Nat) (hD : D ≤ 10) :
    (∀ i < 7, (build_goal D).get_at i = 0) ∧
      ∀ r < 4, ∀ d < D, (build_goal D).get_at (7 + 4 * d + r) = r + 1 :=
  ⟨fun _ hi => get_at_build_goal_hall D hD hi,
    fun r hr d hd => get_at_build_goal_room D hD d r hd hr⟩

/-- Witness for the amended claim C8 at depth 2: hallway cell 0 is empty and
room 2 (category C) at depth 1 sits in slot `7 + 4·1 + 2 = 13`. -/
theorem c8_room_layout_row_major_witness :
    2 ≤ 10 ∧ (build_goal 2).get_at 0 = 0 ∧ (build_goal 2).get_at (7 + 4 * 1 + 2) = 2 + 1 :=
  ⟨by decide, (c8_room_layout_row_major 2 (by decide)).1 0 (by decide),
    (c8_room_layout_row_major 2 (by decide)).2 2 (by decide) 1 (by decide)⟩

/-! ## Claim C9: moves from the goal state -/

/-- Claim C9 (counterexample): the move generator does produce moves for units
already settled in their own room — applied to `build_goal 2` (where every
unit is settled) it is not move-free. -/
theorem c9_settled_units_cex : build_states (build_goal 2) ≠ [] := by decide

/-- Claim C9 (amended): the generator does not prune settled units: the
tunnel phase moves the topmost unit of each room out into the hallway even
when it is already home.  On `build_goal 2` it produces 28 moves (each of the
four settled top units into each of the seven empty hallway stops). -/
theorem c9_settled_units_moves : (build_states (build_goal 2)).length = 28 := by
  decide

/-! ## Characterization of the moves produced by `build_states` -/

theorem walkRight_le (b : Burrow) :
    ∀ steps hpos dist d, walkRight b hpos dist steps = some d → dist ≤ d := by
  intro steps
  induction steps with
  | zero => intro hpos dist d h; simp [walkRight] at h; omega
  | succ s ih =>
    intro hpos dist d h
    rw [walkRight] at h
    split at h
    · exact absurd h (by simp)
    · have := ih (hpos + 1) (dist + walkStep hpos) d h
      omega

theorem walkLeft_le (b : Burrow) :
    ∀ steps hpos dist d, walkLeft b hpos dist steps = some d → dist ≤ d := by
  intro steps
  induction steps with
  | zero => intro hpos dist d h; simp [walkLeft] at h; omega
  | succ s ih =>
    intro hpos dist d h
    rw [walkLeft] at h
    split at h
    · exact absurd h (by simp)
    · have := ih (hpos - 1) (dist + walkStep hpos) d h
      omega

theorem hallwayPath_le (b : Burrow) (i curr d : Nat) (h : hallwayPath b i curr = some d) :
    1 ≤ d := by
  rw [hallwayPath] at h
  split at h
  · exact walkRight_le b _ i 1 d h
  · exact walkLeft_le b _ i 1 d h

theorem descend_le (b : Burrow) (curr : Nat) :
    ∀ fuel vpos fpos dist fd, descend b curr vpos fpos dist fuel = some fd →
      dist ≤ fd.2 := by
  intro fuel
  induction fuel with
  | zero =>
    intro vpos fpos dist fd h
    obtain ⟨f1, f2⟩ := fd
    simp [descend, Prod.mk.injEq] at h
    omega
  | succ f ih =>
    intro vpos fpos dist fd h
    rw [descend] at h
    split at h
    · split at h
      · have := ih (vpos + 4) vpos (dist + 1) fd h
        omega
      · split at h
        · exact absurd h (by simp)
        · exact ih (vpos + 4) fpos dist fd h
    · obtain ⟨f1, f2⟩ := fd
      simp [Prod.mk.injEq] at h
      omega

/-- What a successful tunnel descent tells us: either the chosen cell is an
in-range empty cell, or nothing was empty, the result is the initial `fpos`,
and every in-range cell of the walk holds the walker's own category. -/
theorem descend_spec (b : Burrow) (curr : Nat) :
    ∀ fuel vpos fpos dist fd, b.len ≤ vpos + 4 * fuel →
      descend b curr vpos fpos dist fuel = some fd →
      (fd.1 < b.len ∧ b.get_at fd.1 = 0) ∨
        (fd.1 = fpos ∧ ∀ k, vpos + 4 * k < b.len → b.get_at (vpos + 4 * k) = curr) := by
  intro fuel
  induction fuel with
  | zero =>
    intro vpos fpos dist fd hcov h
    obtain ⟨f1, f2⟩ := fd
    simp [descend, Prod.mk.injEq] at h
    right
    exact ⟨h.1.symm, fun k hk => absurd hk (by omega)⟩
  | succ f ih =>
    intro vpos fpos dist fd hcov h
    rw [descend] at h
    split at h
    · rename_i hv
      split at h
      · rename_i hg
        rcases ih (vpos + 4) vpos (dist + 1) fd (by omega) h with hl | hr
        · exact Or.inl hl
        · exact Or.inl ⟨hr.1 ▸ hv, hr.1 ▸ hg⟩
      · split at h
        · exact absurd h (by simp)
        · rename_i hg hne
          rcases ih (vpos + 4) fpos dist fd (by omega) h with hl | hr
          · exact Or.inl hl
          · refine Or.inr ⟨hr.1, fun k hk => ?_⟩
            cases k with
            | zero => simpa using not_not.mp hne
            | succ j =>
              have := hr.2 j (by omega)
              have harith : vpos + 4 + 4 * j = vpos + 4 * (j + 1) := by omega
              rwa [harith] at this
    · obtain ⟨f1, f2⟩ := fd
      simp [Prod.mk.injEq] at h
      right
      exact ⟨h.1.symm, fun k hk => absurd hk (by omega)⟩

theorem findTop_spec (b : Burrow) :
    ∀ fuel vpos dist pd, findTop b vpos dist fuel = some pd →
      pd.1 < b.len ∧ b.get_at pd.1 ≠ 0 ∧ dist ≤ pd.2 := by
  intro fuel
  induction fuel with
  | zero => intro vpos dist pd h; simp [findTop] at h
  | succ f ih =>
    intro vpos dist pd h
    rw [findTop] at h
    split at h
    · rename_i hv
      split at h
      · rename_i hg
        obtain ⟨p1, p2⟩ := pd
        simp [Prod.mk.injEq] at h
        refine ⟨h.1 ▸ hv, h.1 ▸ hg, by omega⟩
      · have := ih (vpos + 4) (dist + 1) pd h
        exact ⟨this.1, this.2.1, by omega⟩
    · exact absurd h (by simp)

theorem goLeft_mem (b : Burrow) (cost dist pos : Nat) :
    ∀ lp ld m, m ∈ goLeft b cost dist pos lp ld →
      ∃ q ld', q ≤ lp ∧ b.get_at q = 0 ∧ m = (cost * (dist + ld'), b.swap pos q) := by
  intro lp
  induction lp with
  | zero =>
    intro ld m hm
    rw [goLeft] at hm
    split at hm
    · rename_i hg
      simp at hm
      exact ⟨0, ld, Nat.le_refl 0, hg, hm⟩
    · simp at hm
  | succ l ih =>
    intro ld m hm
    rw [goLeft] at hm
    split at hm
    · rename_i hg
      rcases List.mem_cons.mp hm with rfl | htail
      · exact ⟨l + 1, ld, Nat.le_refl _, hg, rfl⟩
      · obtain ⟨q, ld', hq, hg0, hmeq⟩ := ih _ m htail
        exact ⟨q, ld', by omega, hg0, hmeq⟩
    · simp at hm

theorem goRight_mem (b : Burrow) (cost dist pos : Nat) :
    ∀ fuel rp rd m, m ∈ goRight b cost dist pos rp rd fuel →
      ∃ q rd', q ≤ 6 ∧ b.get_at q = 0 ∧ m = (cost * (dist + rd'), b.swap pos q) := by
  intro fuel
  induction fuel with
  | zero => intro rp rd m hm; simp [goRight] at hm
  | succ f ih =>
    intro rp rd m hm
    rw [goRight] at hm
    split at hm
    · rename_i hcond
      rcases List.mem_cons.mp hm with rfl | htail
      · exact ⟨rp, rd, hcond.1, hcond.2, rfl⟩
      · exact ih _ _ m htail
    · simp at hm

theorem COSTS_getD_pos {v : Nat} (h1 : 1 ≤ v) (h4 : v ≤ 4) :
    1 ≤ COSTS.getD (v - 1) 0 := by
  interval_cases v <;> decide

/-- Every move of the hallway phase: a unit at hallway cell `i` moves by a
swap of `i` with an in-range cell, at a positive distance; the destination is
either an empty cell, or (when no cell of its tunnel was empty) the tunnel's
top cell with the whole tunnel already holding the mover's category. -/
theorem hallwayMove_spec (b : Burrow) (D : Nat) (hlen : b.len = 7 + 4 * D) (hD : 1 ≤ D)
    (hvalid : ∀ p < b.len, b.get_at p ≤ 4) {i : Nat} (hi : i < 7) {m : Nat × Burrow}
    (hm : hallwayMove b i = some m) :
    ∃ fpos dist, fpos < b.len ∧ 1 ≤ dist ∧ b.get_at i ≠ 0 ∧
      m = (COSTS.getD (b.get_at i - 1) 0 * dist, b.swap i fpos) ∧
      (b.get_at fpos = 0 ∨
        (fpos = b.get_at i + 6 ∧ ∀ k < D, b.get_at (b.get_at i + 6 + 4 * k) = b.get_at i)) := by
  simp only [hallwayMove] at hm
  split at hm
  · exact absurd hm (by simp)
  · rename_i hcurr
    split at hm
    · exact absurd hm (by simp)
    · rename_i dist0 hpath
      split at hm
      · exact absurd hm (by simp)
      · rename_i fd hdesc
        have hmeq : m = (COSTS.getD (b.get_at i - 1) 0 * fd.2, b.swap i fd.1) :=
          (Option.some.injEq _ _ ▸ hm).symm
        have hcv : b.get_at i ≤ 4 := hvalid i (by omega)
        have hge1 : 1 ≤ b.get_at i := by omega
        have hdist0 := hallwayPath_le b i _ _ hpath
        have hdist := descend_le b (b.get_at i) b.len _ _ _ _ hdesc
        rcases descend_spec b (b.get_at i) b.len _ _ _ _ (by omega) hdesc with hl | hr
        · exact ⟨fd.1, fd.2, hl.1, by omega, hcurr, hmeq, Or.inl hl.2⟩
        · refine ⟨fd.1, fd.2, ?_, by omega, hcurr, hmeq, Or.inr ⟨hr.1, ?_⟩⟩
          · rw [hr.1]
            omega
          · intro k hk
            exact hr.2 k (by omega)

/-- Every move of the tunnel phase: the topmost occupant of tunnel `i` moves
by a swap with an empty hallway cell, at distance at least 2. -/
theorem tunnelMoves_spec (b : Burrow) {i : Nat} (hi : i < 4) {m : Nat × Burrow}
    (hm : m ∈ tunnelMoves b i) :
    ∃ pos q dist', pos < b.len ∧ q ≤ 6 ∧ b.get_at pos ≠ 0 ∧ b.get_at q = 0 ∧
      2 ≤ dist' ∧ m = (COSTS.getD (b.get_at pos - 1) 0 * dist', b.swap pos q) := by
  simp only [tunnelMoves] at hm
  split at hm
  · simp at hm
  · rename_i pd hfind
    obtain ⟨hpos, hocc, hdist⟩ := findTop_spec b b.len (7 + i) 2 pd hfind
    rw [List.mem_append] at hm
    rcases hm with hl | hr
    · obtain ⟨q, ld', hq, hg0, hmeq⟩ := goLeft_mem b _ _ _ (i + 1) 0 m hl
      exact ⟨pd.1, q, pd.2 + ld', hpos, by omega, hocc, hg0, by omega, hmeq⟩
    · obtain ⟨q, rd', hq, hg0, hmeq⟩ := goRight_mem b _ _ _ _ (i + 2) 0 m hr
      exact ⟨pd.1, q, pd.2 + rd', hpos, hq, hocc, hg0, by omega, hmeq⟩

/-- The unified description of a `build_states` move needed by the
conservation, legality and positivity claims. -/
theorem build_states_mem_spec (b : Burrow) (D : Nat) (hlen : b.len = 7 + 4 * D)
    (hD : 1 ≤ D) (hvalid : ∀ p < b.len, b.get_at p ≤ 4) {m : Nat × Burrow}
    (hm : m ∈ build_states b) :
    ∃ a q, a < b.len ∧ q < b.len ∧ b.get_at a ≠ 0 ∧ 0 < m.1 ∧ m.2 = b.swap a q ∧
      (b.get_at q = 0 ∨
        (a < 7 ∧ q = b.get_at a + 6 ∧
          ∀ k < D, b.get_at (b.get_at a + 6 + 4 * k) = b.get_at a)) := by
  rw [build_states, List.mem_append] at hm
  rcases hm with hh | ht
  · rw [List.mem_filterMap] at hh
    obtain ⟨i, hi, hmove⟩ := hh
    rw [List.mem_range] at hi
    obtain ⟨fpos, dist, hfpos, hdist, hocc, hmeq, hdest⟩ :=
      hallwayMove_spec b D hlen hD hvalid hi hmove
    have hcv : b.get_at i ≤ 4 := hvalid i (by omega)
    have hcost : 1 ≤ COSTS.getD (b.get_at i - 1) 0 := COSTS_getD_pos (by omega) hcv
    refine ⟨i, fpos, by omega, hfpos, hocc, ?_, by rw [hmeq], ?_⟩
    · rw [hmeq]
      exact Nat.mul_pos (by omega) (by omega)
    · rcases hdest with h0 | hroom
      · exact Or.inl h0
      · exact Or.inr ⟨hi, hroom.1, hroom.2⟩
  · rw [List.mem_flatMap] at ht
    obtain ⟨i, hi, hmove⟩ := ht
    rw [List.mem_range] at hi
    obtain ⟨pos, q, dist', hpos, hq6, hocc, hg0, hdist, hmeq⟩ := tunnelMoves_spec b hi hmove
    have hcv : b.get_at pos ≤ 4 := hvalid pos hpos
    have hocc1 : 1 ≤ b.get_at pos := by omega
    have hcost : 1 ≤ COSTS.getD (b.get_at pos - 1) 0 := COSTS_getD_pos hocc1 hcv
    refine ⟨pos, q, hpos, by omega, hocc, ?_, by rw [hmeq], Or.inl hg0⟩
    rw [hmeq]
    exact Nat.mul_pos (by omega) (by omega)

/-- `swap` at two in-range positions permutes the cells, so every value's
count is unchanged. -/
theorem countVal_swap (b : Burrow) {a q : Nat} (ha : a < b.len) (hq : q < b.len)
    (v : Nat) : countVal (b.swap a q) v = countVal b v := by
  rw [countVal, countVal, len_swap]
  refine Finset.card_bij' (fun x _ => Equiv.swap a q x) (fun x _ => Equiv.swap a q x)
    ?_ ?_ ?_ ?_
  · intro x hx
    simp only [Finset.mem_filter, Finset.mem_range] at hx ⊢
    rcases eq_or_ne x a with rfl | hxa
    · rw [Equiv.swap_apply_left]
      exact ⟨hq, by rw [← get_at_swap_fst b ha hq]; exact hx.2⟩
    · rcases eq_or_ne x q with rfl | hxq
      · rw [Equiv.swap_apply_right]
        exact ⟨ha, by rw [← get_at_swap_snd b ha hq]; exact hx.2⟩
      · rw [Equiv.swap_apply_of_ne_of_ne hxa hxq]
        exact ⟨hx.1, by rw [← get_at_swap_other b ha hq hx.1 hxa hxq]; exact hx.2⟩
  · intro x hx
    simp only [Finset.mem_filter, Finset.mem_range] at hx ⊢
    rcases eq_or_ne x a with rfl | hxa
    · rw [Equiv.swap_apply_left]
      exact ⟨hq, by rw [get_at_swap_snd b ha hq]; exact hx.2⟩
    · rcases eq_or_ne x q with rfl | hxq
      · rw [Equiv.swap_apply_right]
        exact ⟨ha, by rw [get_at_swap_fst b ha hq]; exact hx.2⟩
      · rw [Equiv.swap_apply_of_ne_of_ne hxa hxq]
        exact ⟨hx.1, by rw [get_at_swap_other b ha hq hx.1 hxa hxq]; exact hx.2⟩
  · intro x _
    exact Equiv.swap_apply_self a q x
  · intro x _
    exact Equiv.swap_apply_self a q x

/-- Claim C3: every move produced by `build_states` preserves, for every cell
value (in particular for each of the four categories), the number of cells
holding that value; with move-closure this gives the reachable-multiset
invariant. -/
theorem c3_conservation (b : Burrow) (D : Nat) (hlen : b.len = 7 + 4 * D) (hD : 1 ≤ D)
    (hvalid : ∀ p < b.len, b.get_at p ≤ 4) :
    ∀ m ∈ build_states b, ∀ v, countVal m.2 v = countVal b v := by
  intro m hm v
  obtain ⟨a, q, ha, hq, -, -, hswap, -⟩ := build_states_mem_spec b D hlen hD hvalid hm
  rw [hswap]
  exact countVal_swap b ha hq v

/-- Witness for claim C3: the sample burrow, its first generated move, and
category C. -/
theorem c3_conservation_witness :
    (Burrow.fromStr sampleChars).len = 7 + 4 * 2 ∧ 1 ≤ 2 ∧
      (∀ p < (Burrow.fromStr sampleChars).len, (Burrow.fromStr sampleChars).get_at p ≤ 4) ∧
      (20, Burrow.fromStr
          ['.', 'B', '.', '.', '.', '.', '.', '.', 'C', 'B', 'D', 'A', 'D', 'C', 'A'])
        ∈ build_states (Burrow.fromStr sampleChars) ∧
      countVal ((20, Burrow.fromStr
          ['.', 'B', '.', '.', '.', '.', '.', '.', 'C', 'B', 'D', 'A', 'D', 'C', 'A'])).2 3 =
        countVal (Burrow.fromStr sampleChars) 3 :=
  ⟨by decide, by decide, by decide, by decide,
    c3_conservation (Burrow.fromStr sampleChars) 2 (by decide) (by decide) (by decide)
      _ (by decide) 3⟩

/-- Claim C4: on a burrow of the data model holding exactly `D` units of each
category, every move produced by `build_states` relocates a single occupied
cell into a cell that is empty in the source state. -/
theorem c4_destination_empty (b : Burrow) (D : Nat) (hlen : b.len = 7 + 4 * D) (hD : 1 ≤ D)
    (hvalid : ∀ p < b.len, b.get_at p ≤ 4)
    (hc1 : countVal b 1 = D) (hc2 : countVal b 2 = D) (hc3 : countVal b 3 = D)
    (hc4 : countVal b 4 = D) :
    ∀ m ∈ build_states b, ∃ a q, a < b.len ∧ q < b.len ∧ b.get_at a ≠ 0 ∧
      b.get_at q = 0 ∧ m.2 = b.swap a q := by
  intro m hm
  obtain ⟨a, q, ha, hq, hocc, -, hswap, hdest⟩ := build_states_mem_spec b D hlen hD hvalid hm
  refine ⟨a, q, ha, hq, hocc, ?_, hswap⟩
  rcases hdest with h0 | ⟨ha7, hq6, hroom⟩
  · exact h0
  exfalso
  -- a full tunnel of the mover's own category plus the mover itself would be
  -- D + 1 units of one category
  have hcv : b.get_at a ≤ 4 := hvalid a ha
  have hocc1 : 1 ≤ b.get_at a := by omega
  have hcnt : countVal b (b.get_at a) = D := by
    interval_cases h : b.get_at a
    · exact hc1
    · exact hc2
    · exact hc3
    · exact hc4
  have hsub : insert a ((Finset.range D).image (fun k => b.get_at a + 6 + 4 * k)) ⊆
      (Finset.range b.len).filter (fun p => b.get_at p = b.get_at a) := by
    intro x hx
    rw [Finset.mem_insert] at hx
    rcases hx with rfl | hx
    · rw [Finset.mem_filter, Finset.mem_range]
      exact ⟨by omega, rfl⟩
    · rw [Finset.mem_image] at hx
      obtain ⟨k, hk, rfl⟩ := hx
      rw [Finset.mem_range] at hk
      rw [Finset.mem_filter, Finset.mem_range]
      exact ⟨by omega, hroom k hk⟩
  have himg : ((Finset.range D).image (fun k => b.get_at a + 6 + 4 * k)).card = D := by
    rw [Finset.card_image_of_injective _ (fun x y h => by omega), Finset.card_range]
  have hnotmem : a ∉ (Finset.range D).image (fun k => b.get_at a + 6 + 4 * k) := by
    rw [Finset.mem_image]
    rintro ⟨k, -, hk⟩
    omega
  have hcard := Finset.card_le_card hsub
  rw [Finset.card_insert_of_not_mem hnotmem, himg] at hcard
  have : countVal b (b.get_at a) = ((Finset.range b.len).filter
      (fun p => b.get_at p = b.get_at a)).card := rfl
  omega

/-- Witness for claim C4: the sample burrow and its first generated move. -/
theorem c4_destination_empty_witness :
    (Burrow.fromStr sampleChars).len = 7 + 4 * 2 ∧ 1 ≤ 2 ∧
      (∀ p < (Burrow.fromStr sampleChars).len, (Burrow.fromStr sampleChars).get_at p ≤ 4) ∧
      countVal (Burrow.fromStr sampleChars) 1 = 2 ∧
      countVal (Burrow.fromStr sampleChars) 2 = 2 ∧
      countVal (Burrow.fromStr sampleChars) 3 = 2 ∧
      countVal (Burrow.fromStr sampleChars) 4 = 2 ∧
      ∃ a q, a < (Burrow.fromStr sampleChars).len ∧ q < (Burrow.fromStr sampleChars).len ∧
        (Burrow.fromStr sampleChars).get_at a ≠ 0 ∧
        (Burrow.fromStr sampleChars).get_at q = 0 ∧
        ((20, Burrow.fromStr
            ['.', 'B', '.', '.', '.', '.', '.', '.', 'C', 'B', 'D', 'A', 'D', 'C', 'A'])).2 =
          (Burrow.fromStr sampleChars).swap a q :=
  ⟨by decide, by decide, by decide, by decide, by decide, by decide, by decide,
    c4_destination_empty (Burrow.fromStr sampleChars) 2 (by decide) (by decide) (by decide)
      (by decide) (by decide) (by decide) (by decide) _ (by decide)⟩

/-- Claim C10: every `(cost, state)` pair returned by `build_states` on a
data-model burrow has a strictly positive cost — the per-category step cost is
at least 1 and the step count at least 1 (at least 2 for room exits), so the
move graph has no zero-cost edges. -/
theorem c10_positive_cost (b : Burrow) (D : Nat) (hlen : b.len = 7 + 4 * D) (hD : 1 ≤ D)
    (hvalid : ∀ p < b.len, b.get_at p ≤ 4) :
    ∀ m ∈ build_states b, 0 < m.1 := by
  intro m hm
  obtain ⟨-, -, -, -, -, hpos, -, -⟩ := build_states_mem_spec b D hlen hD hvalid hm
  exact hpos

/-- Witness for claim C10: the sample burrow and its first generated move. -/
theorem c10_positive_cost_witness :
    (Burrow.fromStr sampleChars).len = 7 + 4 * 2 ∧ 1 ≤ 2 ∧
      (∀ p < (Burrow.fromStr sampleChars).len, (Burrow.fromStr sampleChars).get_at p ≤ 4) ∧
      0 < ((20, Burrow.fromStr
        ['.', 'B', '.', '.', '.', '.', '.', '.', 'C', 'B', 'D', 'A', 'D', 'C', 'A'])).1 :=
  ⟨by decide, by decide, by decide,
    c10_positive_cost (Burrow.fromStr sampleChars) 2 (by decide) (by decide) (by decide)
      _ (by decide)⟩

/-- Witness for claim C7 at the sample burrow, swapping cells 0 and 14. -/
theorem c7_with_swap_spec_witness :
    0 < (Burrow.fromStr sampleChars).len ∧ 14 < (Burrow.fromStr sampleChars).len ∧
      (Burrow.fromStr sampleChars).positions <
        2 ^ ((Burrow.fromStr sampleChars).len * 3) ∧
      ((Burrow.fromStr sampleChars).swap 0 14).swap 0 14 = Burrow.fromStr sampleChars :=
  ⟨by decide, by decide, by decide,
    (c7_with_swap_spec (Burrow.fromStr sampleChars) (by decide) (by decide) (by decide)).2.2.2⟩

/-! ## Bridging the generic search to the Amphipod instance -/

theorem build_states_isSwap (b : Burrow) :
    ∀ m ∈ build_states b, ∃ a q, m.2 = b.swap a q := by
  intro m hm
  rw [build_states, List.mem_append] at hm
  rcases hm with hh | ht
  · rw [List.mem_filterMap] at hh
    obtain ⟨i, hi, hmove⟩ := hh
    simp only [hallwayMove] at hmove
    split at hmove
    · exact absurd hmove (by simp)
    · split at hmove
      · exact absurd hmove (by simp)
      · split at hmove
        · exact absurd hmove (by simp)
        · rename_i fd hdesc
          have hmeq : m = (COSTS.getD (b.get_at i - 1) 0 * fd.2, b.swap i fd.1) :=
            (Option.some.injEq _ _ ▸ hmove).symm
          exact ⟨i, fd.1, by rw [hmeq]⟩
  · rw [List.mem_flatMap] at ht
    obtain ⟨i, hi, hmove⟩ := ht
    simp only [tunnelMoves] at hmove
    split at hmove
    · simp at hmove
    · rename_i pd hfind
      rw [List.mem_append] at hmove
      rcases hmove with hl | hr
      · obtain ⟨q, ld', -, -, hmeq⟩ := goLeft_mem b _ _ _ (i + 1) 0 m hl
        exact ⟨pd.1, q, by rw [hmeq]⟩
      · obtain ⟨q, rd', -, -, hmeq⟩ := goRight_mem b _ _ _ _ (i + 2) 0 m hr
        exact ⟨pd.1, q, by rw [hmeq]⟩

theorem build_states_len (b : Burrow) : ∀ m ∈ build_states b, m.2.len = b.len := by
  intro m hm
  obtain ⟨a, q, hswap⟩ := build_states_isSwap b m hm
  rw [hswap, len_swap]

/-- All packed states reached by the instance successor relation stay below the
packed-range bound. -/
theorem nextOf_bound {len : Nat} (hlen : 1 ≤ len) (p : Nat) :
    ∀ ew ∈ nextOf len p, ew.2 < 2 ^ (len * 3) := by
  intro ew hew
  rw [nextOf, List.mem_map] at hew
  obtain ⟨m, hm, hproj⟩ := hew
  obtain ⟨a, q, hswap⟩ := build_states_isSwap _ m hm
  rw [← hproj]
  show m.2.positions < 2 ^ (len * 3)
  rw [hswap]
  exact swap_positions_lt (⟨len, p⟩ : Burrow) a q hlen

theorem ReachB_len {s t : Burrow} {c : Nat} (h : ReachB s t c) : t.len = s.len := by
  induction h with
  | refl => rfl
  | step hr hmem ih =>
    rw [← ih]
    exact build_states_len _ _ hmem

/-- Burrow-level reachability transports to the packed move graph the search
runs on. -/
theorem ReachB_toReach {s t : Burrow} {c : Nat} (h : ReachB s t c) :
    Reach (nextOf s.len) s.positions t.positions c := by
  induction h with
  | refl => exact Reach.refl
  | step hr hmem ih =>
    rename_i b k e b'
    refine Reach.step ih ?_
    rw [nextOf, List.mem_map]
    refine ⟨(e, b'), ?_, rfl⟩
    have hblen : b.len = s.len := ReachB_len hr
    have hb : (⟨s.len, b.positions⟩ : Burrow) = b := by rw [← hblen]
    rw [hb]
    exact hmem

/-- Packed reachability transports back to the burrow level: every state the
search meets shares the start's length. -/
theorem Reach_toReachB (s : Burrow) {p c : Nat}
    (h : Reach (nextOf s.len) s.positions p c) : ReachB s ⟨s.len, p⟩ c := by
  induction h with
  | refl => exact ReachB.refl
  | step hr hmem ih =>
    rename_i v k e w
    rw [nextOf, List.mem_map] at hmem
    obtain ⟨m, hm, hproj⟩ := hmem
    rw [Prod.mk.injEq] at hproj
    obtain ⟨he, hw⟩ := hproj
    have hlen2 : m.2.len = s.len := build_states_len (⟨s.len, v⟩ : Burrow) m hm
    have hm2 : m.2 = (⟨s.len, w⟩ : Burrow) := by rw [← hlen2, ← hw]
    refine ReachB.step ih ?_
    rw [← he, ← hm2]
    exact hm

/-- The packed goal test of `find_shortest_path` recognises exactly the packed
positions of `build_goal D` when the length matches the data model. -/
theorem goal_encode (len D p : Nat) (hlen : len = 7 + 4 * D) :
    ((⟨len, p⟩ : Burrow) = build_goal D) ↔ p = (build_goal D).positions := by
  constructor
  · intro h
    rw [← h]
  · intro h
    have hl : len = (build_goal D).len := by rw [build_goal_len]; omega
    rw [h, hl]

/-- A complete run of `find_shortest_path`: for some fuel threshold the result
stabilises, a returned cost is the exact optimum over burrow-level move
sequences to the goal, and a `None` means no goal path costs under
`usize::MAX`. -/
theorem fsp_run (start : Burrow) (D : Nat) (hlen : start.len = 7 + 4 * D)
    (hpos : start.positions < 2 ^ (start.len * 3)) :
    ∃ N r, (∀ M, N ≤ M → find_shortest_path start M = some r) ∧
      (∀ c, r = some c → ReachB start (build_goal D) c ∧
        ∀ k, ReachB start (build_goal D) k → c ≤ k) ∧
      (r = none → ∀ k, ReachB start (build_goal D) k → usizeMax ≤ k) := by
  have h1 : 1 ≤ start.len := by omega
  have hb : ∀ q, ∀ ew ∈ nextOf start.len q, ew.2 < 2 ^ (start.len * 3) :=
    fun q => nextOf_bound h1 q
  have hinv := DInv_init (nextOf start.len)
    (fun p => decide ((⟨start.len, p⟩ : Burrow) = build_goal D)) hpos
  obtain ⟨fuel, r, hghost⟩ := ghost_terminates hb hpos (2 ^ (start.len * 3)) 1
    [(0, start.positions)] [(start.positions, 0)] ∅ hinv (by simp) (by simp)
  have hdij : dijkstraLoop (nextOf start.len)
      (fun p => decide ((⟨start.len, p⟩ : Burrow) = build_goal D)) fuel
      [(0, start.positions)] [(start.positions, 0)] = some r := by
    rw [← ghost_eq (nextOf start.len) _ fuel _ _ ∅]
    exact hghost
  have hdepth : (start.len - 7) / 4 = D := by omega
  have hgp : (fun p => decide ((⟨start.len, p⟩ : Burrow) = build_goal D))
      (build_goal D).positions = true := by
    rw [decide_eq_true_eq]
    exact (goal_encode start.len D _ hlen).mpr rfl
  have hsound := ghost_sound hb hpos fuel _ _ ∅ r hinv hghost
  refine ⟨fuel, r, ?_, ?_, ?_⟩
  · intro M hM
    simp only [find_shortest_path]
    rw [hdepth]
    exact dijkstraLoop_mono_le _ _ hM hdij
  · intro c hc
    obtain ⟨⟨g, hg, hreach⟩, hmin⟩ := hsound.1 c hc
    have hgoal : (⟨start.len, g⟩ : Burrow) = build_goal D := of_decide_eq_true hg
    have hRB : ReachB start (build_goal D) c := by
      rw [← hgoal]
      exact Reach_toReachB start hreach
    refine ⟨hRB, fun k hk => ?_⟩
    exact hmin (build_goal D).positions k hgp (ReachB_toReach hk)
  · intro hc k hk
    exact hsound.2 hc (build_goal D).positions k hgp (ReachB_toReach hk)

/-- Claim C1: on any burrow of the data-model topology whose packed state is in
range, whenever `build_goal D` is reachable by `build_states` moves of total
cost under `usize::MAX`, `find_shortest_path` (given enough fuel, i.e. however
long the `while let` loop actually runs) returns `Some c` where `c` is the
exact minimum total cost over all burrow-level move sequences from the start
to the goal. -/
theorem c1_find_shortest_path_optimal (start : Burrow) (D : Nat)
    (hlen : start.len = 7 + 4 * D) (hpos : start.positions < 2 ^ (start.len * 3))
    (hreach : ∃ c, ReachB start (build_goal D) c ∧ c < usizeMax) :
    ∃ N c, (∀ M, N ≤ M → find_shortest_path start M = some (some c)) ∧
      IsLeast {k | ReachB start (build_goal D) k} c := by
  obtain ⟨N, r, hrun, hsome, hnone⟩ := fsp_run start D hlen hpos
  obtain ⟨c₀, hc₀, hc₀max⟩ := hreach
  cases r with
  | none =>
    have := hnone rfl c₀ hc₀
    omega
  | some c =>
    obtain ⟨hmem, hmin⟩ := hsome c rfl
    exact ⟨N, c, hrun, hmem, fun k hk => hmin k hk⟩

/-- Witness for claim C1: the depth-2 burrow `.A......BCDABCD` one move away
from the goal (the hallway `A` walks two steps into the top of its room, cost
2). -/
theorem c1_find_shortest_path_optimal_witness :
    ∃ N c, (∀ M, N ≤ M →
        find_shortest_path (Burrow.fromStr
          ['.', 'A', '.', '.', '.', '.', '.', '.', 'B', 'C', 'D',
           'A', 'B', 'C', 'D']) M = some (some c)) ∧
      IsLeast {k | ReachB (Burrow.fromStr
        ['.', 'A', '.', '.', '.', '.', '.', '.', 'B', 'C', 'D',
         'A', 'B', 'C', 'D']) (build_goal 2) k} c :=
  c1_find_shortest_path_optimal
    (Burrow.fromStr ['.', 'A', '.', '.', '.', '.', '.', '.', 'B', 'C', 'D',
      'A', 'B', 'C', 'D']) 2 (by decide) (by decide)
    ⟨0 + 2, ReachB.step ReachB.refl (by decide), by decide⟩

theorem ReachB_no_moves {s : Burrow} (hnm : build_states s = []) :
    ∀ {t : Burrow} {c : Nat}, ReachB s t c → t = s := by
  intro t c h
  induction h with
  | refl => rfl
  | step hr hmem ih =>
    rw [ih, hnm] at hmem
    exact absurd hmem (List.not_mem_nil _)

/-- Claim C5: when the goal is unreachable the queue drains and
`find_shortest_path` terminates, returning the explicit `None` (encoded
`some none`: the loop exits rather than diverging or panicking). -/
theorem c5_unreachable_returns_none (start : Burrow) (D : Nat)
    (hlen : start.len = 7 + 4 * D) (hpos : start.positions < 2 ^ (start.len * 3))
    (hunreach : ∀ c, ¬ ReachB start (build_goal D) c) :
    ∃ N, ∀ M, N ≤ M → find_shortest_path start M = some none := by
  obtain ⟨N, r, hrun, hsome, hnone⟩ := fsp_run start D hlen hpos
  cases r with
  | none => exact ⟨N, hrun⟩
  | some c => exact absurd (hsome c rfl).1 (hunreach c)

/-- Witness for claim C5: the deadlocked depth-1 burrow `.DDDDD.AAAA` has no
legal move at all, so the goal is unreachable and the search returns `None`. -/
theorem c5_unreachable_returns_none_witness :
    ∃ N, ∀ M, N ≤ M →
      find_shortest_path (Burrow.fromStr deadlockChars) M = some none :=
  c5_unreachable_returns_none (Burrow.fromStr deadlockChars) 1 (by decide) (by decide)
    (fun c hc => absurd (ReachB_no_moves (by decide) hc) (by decide))

end Day23
